import Mathlib

/-!
Shallow embedding of the ptp-dal repository (PTP simulator and
frequency/drift estimation pipeline) for checking its natural-language
specification.  Python floats are modelled as exact rationals; dataset
records (Python dicts) become a structure with required timestamp fields
and optional derived fields.
-/

namespace PtpDal

/-- One exchange record of the dataset.  The keys `t1..t4`, `x_est` and
`x` are the required inputs produced upstream; `rtc_y`, `y_est`, `drift`
and `x_loop` are the optional (possibly absent) derived keys that the
estimator reads or writes. -/
structure Record where
  t1 : ℚ
  t2 : ℚ
  t3 : ℚ
  t4 : ℚ
  x_est : ℚ
  x : ℚ
  rtc_y : Option ℚ
  y_est : Option ℚ
  drift : Option ℚ
  x_loop : Option ℚ
  deriving Repr, DecidableEq

namespace Frequency

/-- Frequency offset estimation strategy (`Estimator.process` argument). -/
inductive Strategy where
  | oneWay
  | oneWayReversed
  | twoWay
  deriving Repr, DecidableEq

/-- Loss function name (`mse` or `max-error`). -/
inductive Loss where
  | mse
  | maxError
  deriving Repr, DecidableEq

/-- Error criterion used for tuning (`cumulative` or `instantaneous`). -/
inductive Criterion where
  | cumulative
  | instantaneous
  deriving Repr, DecidableEq

/-- Windowed difference `v[delta:] - v[:-delta]` of a numpy array. -/
def windowDiff (v : List ℚ) (delta : ℕ) : List ℚ :=
  (v.drop delta).zipWith (fun a b => a - b) v

/-- Remove previous `y_est` estimates (`r.pop("y_est", None)`). -/
def clearYest (data : List Record) : List Record :=
  data.map (fun r => { r with y_est := none })

/-- Embedding of `Estimator.process`: compute the per-record frequency
offset estimates `y_est` and attach them to the records from index
`delta` on. -/
def process (data : List Record) (delta : ℕ) (strategy : Strategy) :
    List Record :=
  let cleared := clearYest data
  let y_est : List ℚ :=
    match strategy with
    | .oneWay =>
        (windowDiff (data.map Record.t2) delta).zipWith
          (fun ds dm => (ds - dm) / dm)
          (windowDiff (data.map Record.t1) delta)
    | .oneWayReversed =>
        (windowDiff (data.map Record.t3) delta).zipWith
          (fun ds dm => (ds - dm) / dm)
          (windowDiff (data.map Record.t4) delta)
    | .twoWay =>
        (windowDiff (data.map Record.x_est) delta).zipWith
          (fun dx dm => dx / dm)
          (windowDiff (data.map Record.t1) delta)
  cleared.take delta ++
    (cleared.drop delta).zipWith (fun r y => { r with y_est := some y }) y_est

/-- Remove previous `drift` estimates (`r.pop("drift", None)`). -/
def clearDrift (data : List Record) : List Record :=
  data.map (fun r => { r with drift := none })

/-- Tail of `Estimator.estimate_drift`: walk `data[1:]` keeping the
previous record, writing `drift = y_est * (t1[i] - t1[i-1])` wherever
`y_est` is present. -/
def estimateDriftAux (prev : Record) : List Record → List Record
  | [] => []
  | r :: rs =>
      let r' :=
        match r.y_est with
        | some y => { r with drift := some (y * (r.t1 - prev.t1)) }
        | none => r
      r' :: estimateDriftAux r' rs

/-- Embedding of `Estimator.estimate_drift`. -/
def estimate_drift (data : List Record) : List Record :=
  match clearDrift data with
  | [] => []
  | r0 :: rest => r0 :: estimateDriftAux r0 rest

/-- Proportional and integrator gains of the PI loop, computed exactly
as in `Estimator.loop`. -/
def loopGains (damping loopbw : ℚ) : ℚ × ℚ :=
  let theta_n := loopbw / (damping + 1 / (4 * damping))
  let denomin := 1 + 2 * damping * theta_n + theta_n ^ 2
  ((4 * damping * theta_n) / denomin, (4 * theta_n ^ 2) / denomin)

/-- Remove previous `drift` and `x_loop` estimates at the start of
`Estimator.loop`. -/
def clearLoop (data : List Record) : List Record :=
  data.map (fun r => { r with drift := none, x_loop := none })

/-- Body of the PI loop of `Estimator.loop`: iterate over the records
carrying the sample index `i`, the integrator `f_int` and the tracked
estimate `dds`; publish `drift`/`x_loop` only for `i >= i_settling`. -/
def loopAux (Kp Ki : ℚ) (i_settling : ℤ) :
    ℕ → ℚ → ℚ → List Record → List Record
  | _, _, _, [] => []
  | i, f_int, dds, r :: rs =>
      let x_est := r.x_est
      let err := x_est - dds
      let f_prop := Kp * err
      let f_int' := f_int + Ki * err
      let f_err := f_prop + f_int'
      let r' :=
        if i_settling ≤ (i : ℤ) then
          { r with drift := some f_err, x_loop := some dds }
        else r
      r' :: loopAux Kp Ki i_settling (i + 1) f_int' (dds + f_err) rs

/-- Embedding of `Estimator.loop`.  Returns `none` exactly when the
source would raise (indexing `data[0]` of an empty dataset). -/
def loop (data : List Record) (damping loopbw settling : ℚ) :
    Option (List Record) :=
  match data with
  | [] => none
  | r0 :: _ =>
      let g := loopGains damping loopbw
      let cleared := clearLoop data
      let i_settling : ℤ := ⌊settling * (data.length : ℚ)⌋
      some (loopAux g.1 g.2 i_settling 0 0 r0.x_est cleared)

/-- Mean of a numpy array (`.mean()`).  For an empty array numpy yields
`nan`; in the rational model this is `0/0 = 0`, a case kept outside every
theorem below via non-emptiness hypotheses. -/
def mean (l : List ℚ) : ℚ := l.sum / (l.length : ℚ)

/-- Maximum absolute value (`np.amax(np.abs(...))`).  The source raises
on an empty array; the model returns the junk value `0` there, a case
kept outside every theorem below. -/
def amaxAbs (l : List ℚ) : ℚ := ((l.map (fun x => |x|)).max?).getD 0

/-- Value of `int(np.floor(np.log2(q)))` for `q ≥ 1`: the greatest `k`
with `2 ^ k ≤ q`, computed as `Nat.log 2 ⌊q⌋` (for an integer power of
two, `2 ^ k ≤ q ↔ 2 ^ k ≤ ⌊q⌋`).  For `q < 1` the source yields some
negative integer (or raises for `q ≤ 0`); every such value makes the
downstream candidate range empty, so the model returns `-1`. -/
def floorLog2 (q : ℚ) : ℤ :=
  if 1 ≤ q then (Nat.log 2 ⌊q⌋.toNat : ℤ) else -1

/-- Candidate window lengths `2 ** np.arange(1, log_max_window + 1)` of
the window-length search. -/
def windowCandidates (max_window_span : ℚ) (n : ℕ) : List ℕ :=
  let log_max_window := floorLog2 (max_window_span * (n : ℚ))
  (List.range' 1 log_max_window.toNat).map (fun k => 2 ^ k)

/-- List comprehension `[1e9*(r["y_est"] - r["rtc_y"]) for r in
data[delta:] if ("y_est" in r and "rtc_y" in r)]`. -/
def yErrList (data : List Record) (delta : ℕ) : List ℚ :=
  (data.drop delta).filterMap (fun r =>
    match r.y_est, r.rtc_y with
    | some y, some t => some (10 ^ 9 * (y - t))
    | _, _ => none)

/-- Loss applied to an error vector: `np.square(v).mean()` for `mse`,
`np.amax(np.abs(v))` for `max-error`. -/
def lossOf (loss : Loss) (v : List ℚ) : ℚ :=
  match loss with
  | .mse => mean (v.map (fun e => e ^ 2))
  | .maxError => amaxAbs v

/-- Score of one window-length candidate in `optimize_to_y`: the loss of
the first `n_samples` entries of the `y_err` vector. -/
def yScore (loss : Loss) (data : List Record) (delta n_samples : ℕ) : ℚ :=
  lossOf loss ((yErrList data delta).take n_samples)

/-- Result of a window-length optimization: the selected `delta`
together with the (mutated-in-place) dataset. -/
structure OptResult where
  delta : ℕ
  data : List Record
  deriving Repr, DecidableEq

/-- One candidate evaluation of the `optimize_to_y` sweep: clear the
previous estimates, process with window `N`, score the first
`n_samples` entries of the error vector, track the best candidate. -/
def yStep (loss : Loss) (n_samples : ℕ)
    (st : Option ℚ × ℕ × List Record) (N : ℕ) :
    Option ℚ × ℕ × List Record :=
  let d' := process (clearYest st.2.2) N .twoWay
  let error := yScore loss d' N n_samples
  match st.1 with
  | none => (some error, N, d')
  | some m =>
      if error < m then (some error, N, d') else (st.1, st.2.1, d')

/-- Embedding of `Estimator.optimize_to_y`.  Returns `none` exactly when
the source raises: an empty candidate list (`window_len[-1]`) or the
`assert(n_samples > 0)` failure. -/
def optimize_to_y (data : List Record) (loss : Loss)
    (max_window_span : ℚ) : Option OptResult :=
  let window_len := windowCandidates max_window_span data.length
  match window_len.getLast? with
  | none => none
  | some max_window_len =>
      if data.length ≤ max_window_len then none
      else
        let n_samples := data.length - max_window_len
        let fin := window_len.foldl (yStep loss n_samples) (none, 0, data)
        some { delta := fin.2.1, data := fin.2.2 }

/-- Previous-index lookup `self.data[i-1]` of `_eval_drift_err`, with
the Python wraparound `data[-1]` (the last record) at `i = 0`. -/
def prevIdx (n i : ℕ) : ℕ := if i = 0 then n - 1 else i - 1

instance : Inhabited Record := ⟨⟨0, 0, 0, 0, 0, 0, none, none, none, none⟩⟩

/-- Instantaneous true drifts `[(r["x"] - self.data[i-1]["x"]) for i,r in
enumerate(self.data) if "drift" in r]`. -/
def trueDriftList (data : List Record) : List ℚ :=
  data.enum.filterMap (fun p =>
    if (p.2.drift).isSome then
      some (p.2.x - (data.getD (prevIdx data.length p.1) default).x)
    else none)

/-- Drift estimates `[r["drift"] for r in self.data if "drift" in r]`. -/
def driftEstList (data : List Record) : List ℚ :=
  data.filterMap Record.drift

/-- Python trailing slice `v[-n:]` (for `n = 0` the whole vector, as in
the source where `n_samples = 0` means all samples). -/
def tailSlice (n : ℕ) (v : List ℚ) : List ℚ :=
  if n = 0 then v else v.drop (v.length - n)

/-- Cumulative sum `np.cumsum`. -/
def cumsum (v : List ℚ) : List ℚ :=
  (List.range v.length).map (fun j => (v.take (j + 1)).sum)

/-- Moving sum `np.convolve(v, np.ones(N), mode="valid")`: for
`len(v) ≥ N` the `len(v) - N + 1` windowed sums; for `0 < len(v) < N`
numpy returns the `N - len(v) + 1` full-overlap positions of the shorter
array inside `np.ones(N)`, each equal to `sum(v)`.  (For an empty `v`
the source raises; the model returns junk entries of `0` there, a case
kept outside every theorem below.) -/
def movingSum (N : ℕ) (v : List ℚ) : List ℚ :=
  if v.length < N then (List.range (N - v.length + 1)).map (fun _ => v.sum)
  else (List.range (v.length + 1 - N)).map (fun j => ((v.drop j).take N).sum)

/-- Embedding of `Estimator._eval_drift_err` (the window size `N` of the
running sum defaults to 8192 at the call sites). -/
def evalDriftErr (data : List Record) (loss : Loss)
    (criterion : Criterion) (n_samples N : ℕ) : ℚ :=
  let true_drift := trueDriftList data
  let drift_est := driftEstList data
  match criterion with
  | .instantaneous =>
      lossOf loss
        (tailSlice n_samples (drift_est.zipWith (fun a b => a - b) true_drift))
  | .cumulative =>
      let true_cum_drift :=
        if data.length ≤ N then cumsum true_drift else movingSum N true_drift
      let cum_drift_est :=
        if data.length ≤ N then cumsum drift_est else movingSum N drift_est
      let cum_drift_err :=
        (tailSlice n_samples
            (cum_drift_est.zipWith (fun a b => a - b) true_cum_drift)).zipWith
          (fun e t => e / |t|) (tailSlice n_samples true_cum_drift)
      lossOf loss cum_drift_err

/-- Score of one window-length candidate in `optimize_to_drift`. -/
def driftScore (loss : Loss) (criterion : Criterion) (data : List Record)
    (n_samples : ℕ) : ℚ :=
  evalDriftErr data loss criterion n_samples 8192

/-- Clearing of both derived keys done at the top of each
`optimize_to_drift` candidate evaluation (`r.pop("y_est")`,
`r.pop("drift")`). -/
def stripYD (r : Record) : Record := { r with y_est := none, drift := none }

/-- One candidate evaluation of the `optimize_to_drift` sweep. -/
def driftStep (loss : Loss) (criterion : Criterion) (n_samples : ℕ)
    (st : Option ℚ × ℕ × List Record) (N : ℕ) :
    Option ℚ × ℕ × List Record :=
  let cleared := st.2.2.map stripYD
  let d' := estimate_drift (process cleared N .twoWay)
  let error := driftScore loss criterion d' n_samples
  match st.1 with
  | none => (some error, N, d')
  | some m =>
      if error < m then (some error, N, d') else (st.1, st.2.1, d')

/-- Embedding of `Estimator.optimize_to_drift`.  Returns `none` exactly
when the source raises (empty candidate list or `n_samples ≤ 0`). -/
def optimize_to_drift (data : List Record) (loss : Loss)
    (criterion : Criterion) (max_window_span : ℚ) : Option OptResult :=
  let window_len := windowCandidates max_window_span data.length
  match window_len.getLast? with
  | none => none
  | some max_window_len =>
      if data.length ≤ max_window_len then none
      else
        let n_samples := data.length - max_window_len
        let fin := window_len.foldl (driftStep loss criterion n_samples)
          (none, 0, data)
        some { delta := fin.2.1, data := fin.2.2 }

/-- Cached PI-loop configuration (the dict stored through `ptp.cache`). -/
structure LoopCfg where
  n_samples : ℕ
  error : Criterion
  damping : ℚ
  loopbw : ℚ
  deriving Repr, DecidableEq

/-- Embedding of `Estimator._is_cfg_loop_valid`. -/
def isCfgLoopValid (data : Option LoopCfg) (n : ℕ)
    (error : Criterion) : Bool :=
  match data with
  | none => false
  | some c => c.n_samples == n && c.error == error

/-- Exact model of `np.arange(start, stop, step)` for a positive step:
`start + k*step` for `k < ⌈(stop - start)/step⌉`. -/
def npArange (start stop step : ℚ) : List ℚ :=
  (List.range (⌈(stop - start) / step⌉.toNat)).map
    (fun k => start + (k : ℚ) * step)

/-- Damping-factor grid of `optimize_loop`. -/
def damping_vec : List ℚ := [1/2, 707/1000, 1, 6/5, 3/2, 9/5, 2]

/-- Loop-bandwidth grid of `optimize_loop`. -/
def loopbw_vec : List ℚ :=
  npArange (1/10) 1 (1/10) ++ npArange (1/100) (1/10) (1/100) ++
    npArange (1/1000) (1/100) (1/1000) ++
    npArange (1/10000) (1/1000) (1/10000) ++
    npArange (1/100000) (1/10000) (1/100000)

/-- State threaded through the loop-parameter sweep. -/
structure SweepState where
  m_error : Option ℚ
  best_damping : Option ℚ
  best_loopbw : Option ℚ
  data : List Record
  deriving Repr, DecidableEq

/-- One candidate evaluation of the `optimize_loop` sweep: run the PI
loop, evaluate the drift error (with default `n_samples = 0`,
`N = 8192`), keep the best configuration. -/
def sweepStep (criterion : Criterion) (loss : Loss) (max_transient : ℚ)
    (st : SweepState) (p : ℚ × ℚ) : Option SweepState :=
  match loop st.data p.1 p.2 max_transient with
  | none => none
  | some d' =>
      let error := evalDriftErr d' loss criterion 0 8192
      match st.m_error with
      | none => some ⟨some error, some p.1, some p.2, d'⟩
      | some m =>
          if error < m then some ⟨some error, some p.1, some p.2, d'⟩
          else some ⟨st.m_error, st.best_damping, st.best_loopbw, d'⟩

/-- All `(damping, loopbw)` candidates in sweep order. -/
def loopCandidates : List (ℚ × ℚ) :=
  damping_vec.flatMap (fun d => loopbw_vec.map (fun b => (d, b)))

/-- Outcome of `optimize_loop`: either the cached configuration was
returned without a sweep, or the sweep ran, mutating the dataset and
optionally saving the winner back through the cache. -/
inductive OptLoopOutcome where
  | fromCache (damping loopbw : ℚ)
  | swept (best_damping best_loopbw : ℚ) (data : List Record)
      (saved : Option LoopCfg)
  deriving Repr, DecidableEq

/-- Embedding of `Estimator.optimize_loop`.  The `cache` argument is
`none` when no cache handler is supplied, and otherwise carries the
result of `cache.load(cache_id)`.  Returns `none` exactly when the
source raises (the PI loop on an empty dataset, or formatting a `None`
winner). -/
def optimize_loop (data : List Record) (criterion : Criterion)
    (loss : Loss) (cache : Option (Option LoopCfg)) (force : Bool)
    (max_transient : ℚ) : Option OptLoopOutcome :=
  let hit : Option LoopCfg :=
    match cache with
    | some cached_loop_cfg =>
        if cached_loop_cfg.isSome && !force then
          if isCfgLoopValid cached_loop_cfg data.length criterion then
            cached_loop_cfg
          else none
        else none
    | none => none
  match hit with
  | some c => some (.fromCache c.damping c.loopbw)
  | none =>
      match loopCandidates.foldlM (sweepStep criterion loss max_transient)
          ⟨none, none, none, data⟩ with
      | none => none
      | some fin =>
          match fin.best_damping, fin.best_loopbw with
          | some bd, some bb =>
              let saved : Option LoopCfg :=
                match cache with
                | some _ => some ⟨data.length, criterion, bd, bb⟩
                | none => none
              some (.swept bd bb fin.data saved)
          | _, _ => none

end Frequency

namespace Sim

/-- Time-keeping second/nanosecond registers (`TimeReg` of
`ptp_simulator.py`). -/
structure TimeReg where
  sec : ℤ
  ns : ℚ
  deriving Repr, DecidableEq

/-- Embedding of `TimeReg.add`: carry whole seconds with `floor`, keep
the nanosecond remainder with the Python float modulo
`x % y = x - y*floor(x/y)`. -/
def TimeReg.add (t : TimeReg) (delta_ns : ℚ) : TimeReg :=
  { sec := t.sec + ⌊(t.ns + delta_ns) / 10 ^ 9⌋
    ns := t.ns + delta_ns - 10 ^ 9 * (⌊(t.ns + delta_ns) / 10 ^ 9⌋ : ℚ) }

/-- Total nanosecond value held by a time register. -/
def TimeReg.val (t : TimeReg) : ℚ := (t.sec : ℚ) * 10 ^ 9 + t.ns

/-- Simulated real-time clock (`Rtc` of `ptp_simulator.py`). -/
structure Rtc where
  inc_cnt : ℤ
  freq_hz : ℚ
  period_ns : ℚ
  inc_val_ns : ℚ
  phase_ns : ℚ
  time : TimeReg
  deriving Repr, DecidableEq

/-- Embedding of `Rtc.__init__`; the random initial seconds, nanoseconds
and phase are taken as explicit arguments. -/
def Rtc.init (clk_freq_hz : ℚ) (sec_0 : ℤ) (ns_0 phase_0_ns : ℚ) : Rtc :=
  let inc_val_ns := (1 / clk_freq_hz) * 10 ^ 9
  { inc_cnt := 0
    freq_hz := clk_freq_hz
    period_ns := inc_val_ns
    inc_val_ns := inc_val_ns
    phase_ns := phase_0_ns
    time := { sec := sec_0, ns := ns_0 } }

/-- Embedding of `Rtc.update`. -/
def Rtc.update (r : Rtc) (t_sim : ℚ) : Rtc :=
  let t_sim_ns := t_sim * 10 ^ 9
  let n_incs0 : ℤ := ⌊(t_sim_ns - r.phase_ns) / r.period_ns⌋
  let n_incs : ℤ := if n_incs0 < 0 then 0 else n_incs0
  let new_incs := n_incs - r.inc_cnt
  let elapsed_ns := (new_incs : ℚ) * r.inc_val_ns
  { r with inc_cnt := n_incs, time := r.time.add elapsed_ns }

/-- PTP event message of `ptp_simulator.py` (`PtpEvt`).  A `none` in
`next_tx`/`next_rx` models `float("inf")`; `tx_tstamp`/`rx_tstamp` hold
the RTC snapshot values. -/
structure PtpEvt where
  period_sec : Option ℚ
  on_way : Bool
  next_tx : Option ℚ
  next_rx : Option ℚ
  seq_num : ℕ
  tx_tstamp : Option TimeReg
  rx_tstamp : Option TimeReg
  deriving Repr, DecidableEq

/-- Comparison `sim_time < deadline` where `none` is `float("inf")`. -/
def ltInf (t : ℚ) : Option ℚ → Bool
  | none => true
  | some v => decide (t < v)

/-- Embedding of the simulator's `PtpEvt.tx`.  The Gamma delay draw of
`_sched_rx` is read from the oracle `delays` at index `di`, which
advances exactly when a draw happens.  Returns the updated message, the
event queue and the new oracle index. -/
def PtpEvt.tx (e : PtpEvt) (sim_time : ℚ) (rtc_timestamp : TimeReg)
    (evts : List ℚ) (delays : ℕ → ℚ) (di : ℕ) :
    PtpEvt × List ℚ × ℕ :=
  if ltInf sim_time e.next_tx || e.on_way then (e, evts, di)
  else
    let e1 := { e with on_way := true, tx_tstamp := some rtc_timestamp,
                       seq_num := e.seq_num + 1 }
    let step2 : PtpEvt × List ℚ :=
      match e1.period_sec with
      | some p => ({ e1 with next_tx := some (sim_time + p) },
                   (sim_time + p) :: evts)
      | none => (e1, evts)
    let delay_ns := delays di
    let next_rx := sim_time + delay_ns * (1 / 10 ^ 9)
    ({ step2.1 with next_rx := some next_rx }, next_rx :: step2.2, di + 1)

/-- Embedding of the simulator's `PtpEvt.rx`: fires iff the scheduled
reception time has been reached and a message is on the way. -/
def PtpEvt.rx (e : PtpEvt) (sim_time : ℚ) (rtc_timestamp : TimeReg) :
    PtpEvt × Bool :=
  if ltInf sim_time e.next_rx || !e.on_way then (e, false)
  else ({ e with on_way := false, rx_tstamp := some rtc_timestamp }, true)

/-- Embedding of the simulator's `PtpEvt.sched_tx`. -/
def PtpEvt.schedTx (e : PtpEvt) (tx_sim_time : ℚ) (evts : List ℚ) :
    PtpEvt × List ℚ :=
  ({ e with next_tx := some tx_sim_time }, tx_sim_time :: evts)

/-- Model of `heapq.heappop`: remove and return the minimum entry. -/
def popMin (l : List ℚ) : Option (ℚ × List ℚ) :=
  match l.min? with
  | none => none
  | some m => some (m, l.erase m)

/-- Full state of the `run` main loop.  `delays`/`dIdx` form the PDV
oracle; `n_exch` is a ghost counter of completed exchanges (successful
`dreq.rx` calls, whose return value the source discards). -/
structure SimState where
  master : Rtc
  slave : Rtc
  sync : PtpEvt
  dreq : PtpEvt
  evts : List ℚ
  simTime : ℚ
  tStep : ℚ
  i_msg : ℕ
  dIdx : ℕ
  n_exch : ℕ

/-- One iteration of the `while` body of `run`: update both RTCs, try
Sync-tx, Sync-rx, Delay_Req-tx, Delay_Req-rx in order, schedule the
Delay_Req transmission on a Sync reception, count the iteration, and
advance simulation time to the next event (or by the fixed step). -/
def tick (delays : ℕ → ℚ) (st : SimState) : SimState :=
  let t := st.simTime
  let master := st.master.update t
  let slave := st.slave.update t
  let s1 := st.sync.tx t master.time st.evts delays st.dIdx
  let s2 := s1.1.rx t slave.time
  let d1 := st.dreq.tx t slave.time s1.2.1 delays s1.2.2
  let d2 := d1.1.rx t master.time
  let d3 := if s2.2 then d2.1.schedTx t d1.2.1 else (d2.1, d1.2.1)
  let adv : ℚ × List ℚ :=
    match popMin d3.2 with
    | some (v, rest) => (v, rest)
    | none => (t + st.tStep, d3.2)
  { master := master, slave := slave, sync := s2.1, dreq := d3.1,
    evts := adv.2, simTime := adv.1, tStep := st.tStep,
    i_msg := st.i_msg + 1, dIdx := d1.2.2,
    n_exch := st.n_exch + (if d2.2 then 1 else 0) }

/-- Initial state of `run`: Sync periodic with 1/16 s, 125 MHz RTCs with
the given random initial values, `sync.next_tx = 0`. -/
def initState (sim_t_step : ℚ) (mSec : ℤ) (mNs mPhase : ℚ) (sSec : ℤ)
    (sNs sPhase : ℚ) : SimState :=
  let sync_period : ℚ := 1 / 16
  let rtc_clk_freq : ℚ := 125 * 10 ^ 6
  { master := Rtc.init rtc_clk_freq mSec mNs mPhase
    slave := Rtc.init rtc_clk_freq sSec sNs sPhase
    sync := { period_sec := some sync_period, on_way := false,
              next_tx := some 0, next_rx := none, seq_num := 0,
              tx_tstamp := none, rx_tstamp := none }
    dreq := { period_sec := none, on_way := false, next_tx := none,
              next_rx := none, seq_num := 0, tx_tstamp := none,
              rx_tstamp := none }
    evts := []
    simTime := 0
    tStep := sim_t_step
    i_msg := 0
    dIdx := 0
    n_exch := 0 }

/-- Fuel-indexed unfolding of the `while (not stop)` loop of `run`: run
one body iteration, stop once `i_msg >= n_iter`, and report `none` when
the fuel runs out before the stop condition fires. -/
def runLoop (delays : ℕ → ℚ) (n_iter : ℕ) :
    ℕ → SimState → Option SimState
  | 0, _ => none
  | fuel + 1, st =>
      let st' := tick delays st
      if n_iter ≤ st'.i_msg then some st' else runLoop delays n_iter fuel st'

end Sim

namespace Msg

/-- PTP event message of `ptp/messages.py` (the variant whose `rx` also
measures the true one-way delay).  A `none` in `next_rx` models
`float("inf")`; the PDV distribution state, used only by `tx`, is
omitted.  Timestamps are modelled as rational nanosecond values. -/
structure PtpEvt where
  period_sec : Option ℚ
  on_way : Bool
  next_tx : Option ℚ
  next_rx : Option ℚ
  seq_num : Option ℕ
  tx_tstamp : Option ℚ
  rx_tstamp : Option ℚ
  one_way_delay : Option ℚ
  deriving Repr, DecidableEq

/-- Embedding of `PtpEvt.rx` of `ptp/messages.py`.  Returns `none`
exactly when the source raises: a firing reception with no recorded
transmission timestamp (`tx_rtc_tstamp - None`). -/
def PtpEvt.rx (e : PtpEvt) (sim_time rx_rtc_tstamp tx_rtc_tstamp : ℚ) :
    Option (PtpEvt × Bool) :=
  if Sim.ltInf sim_time e.next_rx || !e.on_way then some (e, false)
  else
    match e.tx_tstamp with
    | none => none
    | some txts =>
        some ({ e with on_way := false,
                       rx_tstamp := some rx_rtc_tstamp,
                       one_way_delay := some (tx_rtc_tstamp - txts) }, true)

end Msg

namespace Mech

/-- Delay request-response mechanism state (`DelayReqResp` of
`ptp/mechanisms.py`).  Timestamps are modelled from the spec as signed
rational nanosecond values (the `Timestamp` class of the repository is
not under `src/`). -/
structure DelayReqResp where
  seq_num : ℕ
  t1 : ℚ
  t2 : Option ℚ
  t3 : Option ℚ
  t4 : Option ℚ
  d_fw : Option ℚ
  d_bw : Option ℚ
  toffset : Option ℚ
  asymmetry : Option ℚ
  deriving Repr, DecidableEq

/-- Embedding of `DelayReqResp.__init__`. -/
def DelayReqResp.init (seq_num : ℕ) (t1 : ℚ) : DelayReqResp :=
  ⟨seq_num, t1, none, none, none, none, none, none, none⟩

/-- Embedding of `DelayReqResp.set_t2` (the assertion on the sequence
number becomes a guard). -/
def DelayReqResp.setT2 (d : DelayReqResp) (seq_num : ℕ) (t2 : ℚ) :
    Option DelayReqResp :=
  if d.seq_num = seq_num then some { d with t2 := some t2 } else none

/-- Embedding of `DelayReqResp.set_t3`. -/
def DelayReqResp.setT3 (d : DelayReqResp) (seq_num : ℕ) (t3 : ℚ) :
    Option DelayReqResp :=
  if d.seq_num = seq_num then some { d with t3 := some t3 } else none

/-- Embedding of `DelayReqResp.set_t4`. -/
def DelayReqResp.setT4 (d : DelayReqResp) (seq_num : ℕ) (t4 : ℚ) :
    Option DelayReqResp :=
  if d.seq_num = seq_num then some { d with t4 := some t4 } else none

/-- Embedding of `DelayReqResp.set_forward_delay`. -/
def DelayReqResp.setForwardDelay (d : DelayReqResp) (seq_num : ℕ)
    (delay : ℚ) : Option DelayReqResp :=
  if d.seq_num = seq_num then some { d with d_fw := some delay } else none

/-- Embedding of `DelayReqResp.set_backward_delay`. -/
def DelayReqResp.setBackwardDelay (d : DelayReqResp) (seq_num : ℕ)
    (delay : ℚ) : Option DelayReqResp :=
  if d.seq_num = seq_num then some { d with d_bw := some delay } else none

/-- Embedding of `DelayReqResp._estimate_delay`; `none` when a missing
timestamp would make the source raise. -/
def DelayReqResp.estimateDelay (d : DelayReqResp) : Option ℚ :=
  match d.t2, d.t3, d.t4 with
  | some t2, some t3, some t4 => some (((t4 - d.t1) - (t3 - t2)) / 2)
  | _, _, _ => none

/-- Embedding of `DelayReqResp._estimate_time_offset`. -/
def DelayReqResp.estimateTimeOffset (d : DelayReqResp) : Option ℚ :=
  match d.t2, d.t3, d.t4 with
  | some t2, some t3, some t4 => some (((t2 - d.t1) - (t4 - t3)) / 2)
  | _, _, _ => none

/-- Embedding of `DelayReqResp.set_truth`; `none` when a missing true
delay would make `(self.d_fw - self.d_bw) / 2` raise. -/
def DelayReqResp.setTruth (d : DelayReqResp)
    (master_tstamp slave_tstamp : ℚ) : Option DelayReqResp :=
  match d.d_fw, d.d_bw with
  | some fw, some bw =>
      some { d with toffset := some (slave_tstamp - master_tstamp),
                    asymmetry := some ((fw - bw) / 2) }
  | _, _ => none

/-- Result dictionary built by `DelayReqResp.process`.  The optional
fields are present exactly when the source adds the corresponding key. -/
structure ProcResult where
  idx : ℕ
  t1 : ℚ
  t2 : Option ℚ
  t3 : Option ℚ
  t4 : Option ℚ
  d : Option ℚ
  d_est : ℚ
  x_est : ℚ
  asym : Option ℚ
  x : Option ℚ
  x_est_err : Option ℚ
  deriving Repr, DecidableEq

/-- Embedding of `DelayReqResp.process`; `none` when the estimation
arithmetic on a missing timestamp would make the source raise. -/
def DelayReqResp.process (drr : DelayReqResp) : Option ProcResult :=
  match drr.estimateDelay, drr.estimateTimeOffset with
  | some delay_est, some toffset_est =>
      some { idx := drr.seq_num
             t1 := drr.t1
             t2 := drr.t2
             t3 := drr.t3
             t4 := drr.t4
             d := drr.d_fw
             d_est := delay_est
             x_est := toffset_est
             asym := drr.asymmetry
             x := drr.toffset
             x_est_err := drr.toffset.map (fun xo => toffset_est - xo) }
  | _, _ => none

end Mech

/-! ## Concrete datasets used by counterexamples and witnesses -/

/-- Build a record carrying the required input keys only. -/
def mkRec (t1 t2 t3 t4 x_est x : ℚ) (rtc_y : Option ℚ) : Record :=
  ⟨t1, t2, t3, t4, x_est, x, rtc_y, none, none, none⟩

/-- Four-record dataset with constant `x_est`, used to exercise the PI
loop with a configuration whose analytic settling time far exceeds half
the dataset length. -/
def dataFour : List Record :=
  [mkRec 0 0 0 0 0 0 none, mkRec 1 0 0 0 0 0 none,
   mkRec 2 0 0 0 0 0 none, mkRec 3 0 0 0 0 0 none]

/-- Two-record dataset separating the code's two-way formula
`Δx_est/Δt1` from the spec formula `(Δx_est − Δt1)/Δt1`. -/
def dataTwo : List Record :=
  [mkRec 0 0 0 0 0 0 none, mkRec 2 0 0 0 6 0 none]

/-! ## C5: delay request-response processing -/

/-- C5: for a completed exchange with timestamps `t1..t4` and supplied
ground truth, `DelayReqResp.process` produces
`d_est = ((t4-t1)-(t3-t2))/2`, `x_est = ((t2-t1)-(t4-t3))/2`,
`x = slave - master`, `asym = (d_fw - d_bw)/2` and
`x_est_err = x_est - x`. -/
theorem C5_delay_req_resp_process (seq : ℕ) (t1 t2 t3 t4 fw bw m s : ℚ) :
    (do
      let d1 ← (Mech.DelayReqResp.init seq t1).setT2 seq t2
      let d2 ← d1.setT3 seq t3
      let d3 ← d2.setT4 seq t4
      let d4 ← d3.setForwardDelay seq fw
      let d5 ← d4.setBackwardDelay seq bw
      let d6 ← d5.setTruth m s
      d6.process) =
      some { idx := seq, t1 := t1, t2 := some t2, t3 := some t3,
             t4 := some t4, d := some fw,
             d_est := ((t4 - t1) - (t3 - t2)) / 2,
             x_est := ((t2 - t1) - (t4 - t3)) / 2,
             asym := some ((fw - bw) / 2),
             x := some (s - m),
             x_est_err :=
               some (((t2 - t1) - (t4 - t3)) / 2 - (s - m)) } := by
  simp [Mech.DelayReqResp.init, Mech.DelayReqResp.setT2,
    Mech.DelayReqResp.setT3, Mech.DelayReqResp.setT4,
    Mech.DelayReqResp.setForwardDelay, Mech.DelayReqResp.setBackwardDelay,
    Mech.DelayReqResp.setTruth, Mech.DelayReqResp.process,
    Mech.DelayReqResp.estimateDelay, Mech.DelayReqResp.estimateTimeOffset]

/-! ## C8: message reception -/

/-- C8 counterexample: a reception firing with transmitter snapshot 30,
receiver snapshot 100 and recorded transmission timestamp 10 stores
`one_way_delay = 30 - 10 = 20`, not the receiver-domain minus
transmitter-domain snapshot difference `100 - 10 = 90` the claim
states. -/
theorem C8_counterexample :
    ((Msg.PtpEvt.rx ⟨none, true, none, some 5, some 0, some 10, none, none⟩
        5 100 30).map (fun p => (p.1.one_way_delay, p.2)) =
      some (some 20, true)) ∧ (20 : ℚ) ≠ 100 - 10 := by
  constructor
  · norm_num [Msg.PtpEvt.rx, Sim.ltInf]
  · norm_num

/-- C8 amended: `rx` fires iff the simulation time has reached the
scheduled reception time (where an unscheduled reception means
`float("inf")`) and a message is on the way; on success it clears
`on_way`, stores the receiver RTC snapshot in `rx_tstamp`, sets the
true one-way delay to the transmitter-RTC snapshot at reception minus
the transmitter-RTC snapshot recorded at transmission, and returns
`True`; otherwise it leaves the message untouched and returns
`False`. -/
theorem C8_rx_characterization (e : Msg.PtpEvt)
    (sim_time rx_rtc_tstamp tx_rtc_tstamp tau : ℚ)
    (htx : e.tx_tstamp = some tau) :
    (e.on_way = true → (∃ v, e.next_rx = some v ∧ v ≤ sim_time) →
      e.rx sim_time rx_rtc_tstamp tx_rtc_tstamp =
        some ({ e with on_way := false,
                       rx_tstamp := some rx_rtc_tstamp,
                       one_way_delay :=
                         some (tx_rtc_tstamp - tau) }, true)) ∧
    (e.on_way = false →
      e.rx sim_time rx_rtc_tstamp tx_rtc_tstamp = some (e, false)) ∧
    (e.next_rx = none ∨ (∃ v, e.next_rx = some v ∧ sim_time < v) →
      e.rx sim_time rx_rtc_tstamp tx_rtc_tstamp = some (e, false)) := by
  refine ⟨?_, ?_, ?_⟩
  · rintro hw ⟨v, hnx, hle⟩
    simp [Msg.PtpEvt.rx, Sim.ltInf, hnx, hw, htx, not_lt.mpr hle]
  · intro hw
    simp [Msg.PtpEvt.rx, hw]
  · rintro (hnx | ⟨v, hnx, hlt⟩)
    · simp [Msg.PtpEvt.rx, Sim.ltInf, hnx]
    · simp [Msg.PtpEvt.rx, Sim.ltInf, hnx, hlt]

/-- C8 witness: the amended characterization applied to a concrete
firing reception. -/
theorem C8_rx_characterization_witness :
    Msg.PtpEvt.rx ⟨none, true, none, some 5, some 0, some 10, none, none⟩
        7 100 30 =
      some (⟨none, false, none, some 5, some 0, some 10, some 100,
             some (30 - 10)⟩, true) := by
  have h := (C8_rx_characterization
    ⟨none, true, none, some 5, some 0, some 10, none, none⟩
    7 100 30 10 rfl).1 rfl ⟨5, rfl, by norm_num⟩
  exact h

/-! ## C2: no settling-time validity check -/

/-- C2 counterexample: damping 1 and loop bandwidth 1/1000 give an
analytic settling time of 4000 samples, far beyond half of the
four-sample dataset, yet `Estimator.loop` runs the configuration and
publishes drift estimates instead of rejecting it. -/
theorem C2_counterexample :
    (4 / ((1 : ℚ) * (1 / 1000)) > (dataFour.length : ℚ) / 2) ∧
    ((Frequency.loop dataFour 1 (1 / 1000) (1 / 5)).map
        (fun l => l.map (fun r => r.drift.isSome)) =
      some [true, true, true, true]) := by
  constructor
  · norm_num [dataFour]
  · norm_num [Frequency.loop, Frequency.loopGains, Frequency.clearLoop,
      Frequency.loopAux, dataFour, mkRec]

/-- C2 amended: neither `Estimator.loop` nor the sweep applies any
settling-time validity check; on a non-empty dataset the PI loop runs
for every damping factor, loop bandwidth and settling fraction and
returns a result instead of an error. -/
theorem C2_loop_never_rejected (data : List Record) (hne : data ≠ [])
    (damping loopbw settling : ℚ) :
    (Frequency.loop data damping loopbw settling).isSome := by
  cases data with
  | nil => exact absurd rfl hne
  | cons r rs => simp [Frequency.loop]

/-- C2 witness: the amended theorem applied to the four-sample dataset
with the settling-constraint-violating configuration. -/
theorem C2_loop_never_rejected_witness :
    (Frequency.loop dataFour 1 (1 / 1000) (1 / 5)).isSome :=
  C2_loop_never_rejected dataFour (by decide) 1 (1 / 1000) (1 / 5)

/-! ## C6: RTC update and monotonicity -/

namespace Sim

/-- Clamped increment count computed by `Rtc.update`. -/
def nIncs (r : Rtc) (t_sim : ℚ) : ℤ :=
  max 0 ⌊(t_sim * 10 ^ 9 - r.phase_ns) / r.period_ns⌋

theorem TimeReg.val_add (t : TimeReg) (d : ℚ) : (t.add d).val = t.val + d := by
  simp only [TimeReg.add, TimeReg.val]
  push_cast
  ring

theorem Rtc.update_inc_cnt (r : Rtc) (t : ℚ) :
    (r.update t).inc_cnt = nIncs r t := by
  simp only [Rtc.update, nIncs]
  split <;> omega

theorem Rtc.update_val (r : Rtc) (t : ℚ) :
    (r.update t).time.val =
      r.time.val + ((nIncs r t - r.inc_cnt : ℤ) : ℚ) * r.inc_val_ns := by
  have h : (if (⌊(t * 10 ^ 9 - r.phase_ns) / r.period_ns⌋ : ℤ) < 0 then 0
      else ⌊(t * 10 ^ 9 - r.phase_ns) / r.period_ns⌋) = nIncs r t := by
    simp only [nIncs]; split <;> omega
  simp only [Rtc.update, h, TimeReg.val_add]

theorem Rtc.update_fields (r : Rtc) (t : ℚ) :
    (r.update t).phase_ns = r.phase_ns ∧ (r.update t).period_ns = r.period_ns ∧
      (r.update t).inc_val_ns = r.inc_val_ns := by
  simp [Rtc.update]

theorem nIncs_mono (r : Rtc) (hp : 0 < r.period_ns) {a b : ℚ} (h : a ≤ b) :
    nIncs r a ≤ nIncs r b := by
  refine max_le_max le_rfl (Int.floor_le_floor ?_)
  gcongr

/-- Monotonicity invariant of a sequence of `Rtc.update` calls at
non-decreasing simulation times. -/
theorem scanl_update_chain (ts : List ℚ) (r : Rtc) (hp : 0 < r.period_ns)
    (hi : 0 ≤ r.inc_val_ns)
    (hc : ∀ t, ts.head? = some t → r.inc_cnt ≤ nIncs r t)
    (hts : ts.Chain' (· ≤ ·)) :
    (ts.scanl Rtc.update r).Chain'
      (fun a b => a.inc_cnt ≤ b.inc_cnt ∧ a.time.val ≤ b.time.val) := by
  induction ts generalizing r with
  | nil => simp
  | cons t ts ih =>
      rw [List.scanl_cons]
      simp only [List.singleton_append]
      rw [List.chain'_cons']
      have hcnt : r.inc_cnt ≤ nIncs r t := hc t rfl
      have hhd : (List.scanl Rtc.update (r.update t) ts).head? =
          some (r.update t) := by
        cases ts <;> simp [List.scanl]
      constructor
      · intro b hb
        rw [hhd, Option.mem_def, Option.some_inj] at hb
        subst hb
        refine ⟨?_, ?_⟩
        · rw [Rtc.update_inc_cnt]; exact hcnt
        · rw [Rtc.update_val]
          have hmul : 0 ≤ ((nIncs r t - r.inc_cnt : ℤ) : ℚ) * r.inc_val_ns := by
            apply mul_nonneg _ hi
            exact_mod_cast Int.sub_nonneg.mpr hcnt
          linarith
      · rw [List.chain'_cons'] at hts
        refine ih (r.update t) ?_ ?_ ?_ hts.2
        · rw [(Rtc.update_fields r t).2.1]; exact hp
        · rw [(Rtc.update_fields r t).2.2]; exact hi
        · intro u hu
          rw [Rtc.update_inc_cnt]
          have htu : t ≤ u := hts.1 u hu
          have : nIncs (r.update t) u = nIncs r u := by
            simp [nIncs, Rtc.update]
          rw [this]
          exact nIncs_mono r hp htu

end Sim

/-- C6: each `Rtc.update` call computes
`n_incs = max(0, floor((sim_time_ns - phase_ns)/period_ns))`, advances
the time register by `(n_incs - inc_cnt) * inc_val_ns`, and sets
`inc_cnt = n_incs`; consequently, over a non-decreasing sequence of
simulation times, both the RTC time value and the increment count of a
freshly initialized RTC are non-decreasing. -/
theorem C6_rtc_update_monotone (clk_freq_hz : ℚ) (hf : 0 < clk_freq_hz)
    (sec_0 : ℤ) (ns_0 phase_0_ns : ℚ) (ts : List ℚ)
    (hts : ts.Chain' (· ≤ ·)) :
    (∀ (r : Sim.Rtc) (t_sim : ℚ),
      (r.update t_sim).inc_cnt =
        max 0 ⌊(t_sim * 10 ^ 9 - r.phase_ns) / r.period_ns⌋ ∧
      (r.update t_sim).time.val = r.time.val +
        ((max 0 ⌊(t_sim * 10 ^ 9 - r.phase_ns) / r.period_ns⌋ -
            r.inc_cnt : ℤ) : ℚ) * r.inc_val_ns) ∧
    (ts.scanl Sim.Rtc.update
        (Sim.Rtc.init clk_freq_hz sec_0 ns_0 phase_0_ns)).Chain'
      (fun a b => a.inc_cnt ≤ b.inc_cnt ∧ a.time.val ≤ b.time.val) := by
  constructor
  · intro r t
    exact ⟨Sim.Rtc.update_inc_cnt r t, Sim.Rtc.update_val r t⟩
  · have hval : 0 < (1 / clk_freq_hz) * (10 : ℚ) ^ 9 := by positivity
    refine Sim.scanl_update_chain ts _ ?_ ?_ ?_ hts
    · exact hval
    · exact le_of_lt hval
    · intro t _
      simp only [Sim.Rtc.init, Sim.nIncs]
      exact le_max_left 0 _

/-- C6 witness: the characterization and monotonicity applied to a
125 MHz RTC updated at the times 0, 1/16 and 1/8 seconds. -/
theorem C6_rtc_update_monotone_witness :
    ([ (0 : ℚ), 1/16, 1/8 ].scanl Sim.Rtc.update
        (Sim.Rtc.init (125 * 10 ^ 6) 0 0 3)).Chain'
      (fun a b => a.inc_cnt ≤ b.inc_cnt ∧ a.time.val ≤ b.time.val) :=
  (C6_rtc_update_monotone (125 * 10 ^ 6) (by norm_num) 0 0 3
    [0, 1/16, 1/8] (by norm_num [List.chain'_cons, List.chain'_singleton])).2

/-! ## C1: PI loop characterization -/

namespace Frequency

/-- One PI-loop state transition on the pair `(f_int, dds)` driven by an
input sample `x`. -/
def piStep (Kp Ki x : ℚ) (st : ℚ × ℚ) : ℚ × ℚ :=
  let err := x - st.2
  let f_int := st.1 + Ki * err
  (f_int, st.2 + (Kp * err + f_int))

/-- PI-loop state before processing sample `i`, starting from `init`
over the input samples `xs`. -/
def piState (Kp Ki : ℚ) (xs : List ℚ) (init : ℚ × ℚ) : ℕ → ℚ × ℚ
  | 0 => init
  | i + 1 => piStep Kp Ki (xs.getD i 0) (piState Kp Ki xs init i)

/-- Loop output `f_err = f_prop + f_int` published at sample `i`. -/
def piFerr (Kp Ki : ℚ) (xs : List ℚ) (init : ℚ × ℚ) (i : ℕ) : ℚ :=
  let st := piState Kp Ki xs init i
  let err := xs.getD i 0 - st.2
  Kp * err + (st.1 + Ki * err)

theorem piState_cons (Kp Ki x : ℚ) (xs : List ℚ) (st : ℚ × ℚ) (j : ℕ) :
    piState Kp Ki (x :: xs) st (j + 1) =
      piState Kp Ki xs (piStep Kp Ki x st) j := by
  induction j with
  | zero => rfl
  | succ j ih =>
      rw [show j + 1 + 1 = (j + 1) + 1 from rfl]
      rw [piState, ih, piState]
      simp [List.getD_cons_succ]

theorem piFerr_cons (Kp Ki x : ℚ) (xs : List ℚ) (st : ℚ × ℚ) (j : ℕ) :
    piFerr Kp Ki (x :: xs) st (j + 1) =
      piFerr Kp Ki xs (piStep Kp Ki x st) j := by
  simp [piFerr, piState_cons, List.getD_cons_succ]

theorem loopAux_length (Kp Ki : ℚ) (ist : ℤ) (rs : List Record) :
    ∀ (i : ℕ) (f_int dds : ℚ),
      (loopAux Kp Ki ist i f_int dds rs).length = rs.length := by
  induction rs with
  | nil => intro i f d; rfl
  | cons r rs ih => intro i f d; simp [loopAux, ih]

/-- Index-wise characterization of the PI-loop body. -/
theorem loopAux_getElem? (Kp Ki : ℚ) (ist : ℤ) :
    ∀ (rs : List Record) (j i : ℕ) (st : ℚ × ℚ), j < rs.length →
      (loopAux Kp Ki ist i st.1 st.2 rs)[j]? =
        (rs[j]?).map (fun r =>
          if ist ≤ ((i + j : ℕ) : ℤ) then
            { r with
              drift := some (piFerr Kp Ki (rs.map Record.x_est) st j),
              x_loop := some (piState Kp Ki (rs.map Record.x_est) st j).2 }
          else r) := by
  intro rs
  induction rs with
  | nil => intro j i st h; simp at h
  | cons r rs ih =>
      intro j i st h
      cases j with
      | zero =>
          simp only [loopAux, List.getElem?_cons_zero, Option.map_some,
            Nat.add_zero]
          have hferr : piFerr Kp Ki ((r :: rs).map Record.x_est) st 0 =
              Kp * (r.x_est - st.2) + (st.1 + Ki * (r.x_est - st.2)) := by
            simp [piFerr, piState]
          have hst : (piState Kp Ki ((r :: rs).map Record.x_est) st 0).2 =
              st.2 := rfl
          rw [hferr, hst]
          simp
      | succ j =>
          have hj : j < rs.length := by simpa using h
          have hstep : (loopAux Kp Ki ist i st.1 st.2 (r :: rs))[j + 1]? =
              (loopAux Kp Ki ist (i + 1) (piStep Kp Ki r.x_est st).1
                (piStep Kp Ki r.x_est st).2 rs)[j]? := by
            simp only [loopAux, List.getElem?_cons_succ]
            rfl
          rw [hstep, ih j (i + 1) (piStep Kp Ki r.x_est st) hj,
            List.getElem?_cons_succ, List.map_cons,
            piFerr_cons Kp Ki r.x_est _ st j,
            piState_cons Kp Ki r.x_est _ st j,
            show i + 1 + j = i + (j + 1) from by omega]

theorem clearLoop_map_x_est (data : List Record) :
    (clearLoop data).map Record.x_est = data.map Record.x_est := by
  simp [clearLoop]

/-- Normalized loop bandwidth parameter `θ = ω/(ζ + 1/(4ζ))` as stated
by the spec. -/
def claimTheta (damping loopbw : ℚ) : ℚ :=
  loopbw / (damping + 1 / (4 * damping))

/-- Gain denominator `D = 1 + 2ζθ + θ²` as stated by the spec. -/
def claimDenom (damping loopbw : ℚ) : ℚ :=
  1 + 2 * damping * claimTheta damping loopbw +
    claimTheta damping loopbw ^ 2

/-- Proportional gain `Kp = 4ζθ/D` as stated by the spec. -/
def claimKp (damping loopbw : ℚ) : ℚ :=
  4 * damping * claimTheta damping loopbw / claimDenom damping loopbw

/-- Integrator gain `Ki = 4θ²/D` as stated by the spec. -/
def claimKi (damping loopbw : ℚ) : ℚ :=
  4 * claimTheta damping loopbw ^ 2 / claimDenom damping loopbw

theorem loopGains_eq (damping loopbw : ℚ) :
    loopGains damping loopbw =
      (claimKp damping loopbw, claimKi damping loopbw) := rfl

/-- C1: on a dataset whose records carry `x_est`, `Estimator.loop` with
damping `ζ > 0` and bandwidth `ω > 0` computes the gains
`θ = ω/(ζ + 1/(4ζ))`, `D = 1 + 2ζθ + θ²`, `Kp = 4ζθ/D`, `Ki = 4θ²/D`,
starts from integrator 0 and tracked estimate `x_est[0]`, and for each
sample index `j` publishes `drift[j] = f_err` and `x_loop[j]` = the
pre-update tracked estimate exactly when `j ≥ floor(settling·len)`,
following the per-sample recurrence `err = x_est[j] - dds;
f_int += Ki·err; f_err = Kp·err + f_int; dds += f_err`. -/
theorem C1_pi_loop (data : List Record) (hne : data ≠ [])
    (damping loopbw settling : ℚ) (hd : 0 < damping) (hw : 0 < loopbw) :
    ∃ out, loop data damping loopbw settling = some out ∧
      out.length = data.length ∧
      ∀ j, j < data.length →
        (out[j]?).map Record.drift =
          some (if ⌊settling * (data.length : ℚ)⌋ ≤ (j : ℤ) then
            some (piFerr (claimKp damping loopbw) (claimKi damping loopbw)
              (data.map Record.x_est) (0, (data.map Record.x_est).getD 0 0) j)
          else none) ∧
        (out[j]?).map Record.x_loop =
          some (if ⌊settling * (data.length : ℚ)⌋ ≤ (j : ℤ) then
            some (piState (claimKp damping loopbw) (claimKi damping loopbw)
              (data.map Record.x_est)
              (0, (data.map Record.x_est).getD 0 0) j).2
          else none) := by
  cases data with
  | nil => exact absurd rfl hne
  | cons r0 rest =>
      refine ⟨loopAux (claimKp damping loopbw) (claimKi damping loopbw)
        ⌊settling * (((r0 :: rest).length : ℕ) : ℚ)⌋ 0 0 r0.x_est
        (clearLoop (r0 :: rest)), rfl, ?_, ?_⟩
      · simp [loopAux_length, clearLoop]
      · intro j hj
        have hlen : j < (clearLoop (r0 :: rest)).length := by
          simpa [clearLoop] using hj
        have hkey := loopAux_getElem? (claimKp damping loopbw)
          (claimKi damping loopbw)
          ⌊settling * (((r0 :: rest).length : ℕ) : ℚ)⌋
          (clearLoop (r0 :: rest)) j 0
          (0, (((r0 :: rest).map Record.x_est).getD 0 0)) hlen
        simp only [Nat.zero_add, clearLoop_map_x_est] at hkey
        have hcl : (clearLoop (r0 :: rest))[j]? =
            ((r0 :: rest)[j]?).map
              (fun r => { r with drift := none, x_loop := none }) :=
          List.getElem?_map _ _ _
        rw [hcl] at hkey
        obtain ⟨rr, hrr⟩ : ∃ rr, (r0 :: rest)[j]? = some rr :=
          ⟨_, List.getElem?_eq_some_iff.mpr ⟨hj, rfl⟩⟩
        have hout : (loop (r0 :: rest) damping loopbw settling) = some
            (loopAux (claimKp damping loopbw) (claimKi damping loopbw)
              ⌊settling * (((r0 :: rest).length : ℕ) : ℚ)⌋ 0 0 r0.x_est
              (clearLoop (r0 :: rest))) := rfl
        have hx0 : (((r0 :: rest).map Record.x_est).getD 0 0) = r0.x_est := by
          simp
        rw [hx0] at hkey
        rw [hkey, hrr]
        constructor <;> · simp only [Option.map_some']
                          split_ifs <;> rfl

/-- C1 witness: the PI-loop characterization applied to the concrete
four-sample dataset with damping 1, bandwidth 1/2 and settling fraction
1/4. -/
theorem C1_pi_loop_witness :
    ∃ out, loop PtpDal.dataFour 1 (1 / 2) (1 / 4) = some out ∧
      out.length = PtpDal.dataFour.length ∧
      ∀ j, j < PtpDal.dataFour.length →
        (out[j]?).map Record.drift =
          some (if ⌊(1 / 4 : ℚ) * (PtpDal.dataFour.length : ℚ)⌋ ≤ (j : ℤ) then
            some (piFerr (claimKp 1 (1 / 2)) (claimKi 1 (1 / 2))
              (PtpDal.dataFour.map Record.x_est)
              (0, (PtpDal.dataFour.map Record.x_est).getD 0 0) j)
          else none) ∧
        (out[j]?).map Record.x_loop =
          some (if ⌊(1 / 4 : ℚ) * (PtpDal.dataFour.length : ℚ)⌋ ≤ (j : ℤ) then
            some (piState (claimKp 1 (1 / 2)) (claimKi 1 (1 / 2))
              (PtpDal.dataFour.map Record.x_est)
              (0, (PtpDal.dataFour.map Record.x_est).getD 0 0) j).2
          else none) :=
  C1_pi_loop PtpDal.dataFour (by decide) 1 (1 / 2) (1 / 4) one_pos
    (by norm_num)

/-- Frequency offset estimate attached to record `j` (with window
`delta`), per strategy: windowed slave-interval against master-interval
for the one-way strategies, windowed two-way offset difference over the
`t1` interval for the two-way strategy. -/
def yFormula (data : List Record) (delta : ℕ) (strategy : Strategy)
    (j : ℕ) : ℚ :=
  match strategy with
  | .oneWay =>
      let t1 := data.map Record.t1
      let t2 := data.map Record.t2
      ((t2.getD j 0 - t2.getD (j - delta) 0) -
          (t1.getD j 0 - t1.getD (j - delta) 0)) /
        (t1.getD j 0 - t1.getD (j - delta) 0)
  | .oneWayReversed =>
      let t3 := data.map Record.t3
      let t4 := data.map Record.t4
      ((t3.getD j 0 - t3.getD (j - delta) 0) -
          (t4.getD j 0 - t4.getD (j - delta) 0)) /
        (t4.getD j 0 - t4.getD (j - delta) 0)
  | .twoWay =>
      let t1 := data.map Record.t1
      let x_est := data.map Record.x_est
      (x_est.getD j 0 - x_est.getD (j - delta) 0) /
        (t1.getD j 0 - t1.getD (j - delta) 0)

theorem getD_of_lt (v : List ℚ) (k : ℕ) (h : k < v.length) :
    v[k]? = some (v.getD k 0) := by
  rw [List.getElem?_eq_getElem h]
  congr 1
  exact (List.getD_eq_getElem v 0 h).symm

theorem windowDiff_length (v : List ℚ) (delta : ℕ) :
    (windowDiff v delta).length = v.length - delta := by
  simp [windowDiff, List.length_zipWith]

theorem windowDiff_getElem? (v : List ℚ) (delta k : ℕ)
    (h : delta + k < v.length) :
    (windowDiff v delta)[k]? =
      some (v.getD (delta + k) 0 - v.getD k 0) := by
  rw [windowDiff, List.getElem?_zipWith, List.getElem?_drop,
    getD_of_lt v (delta + k) h, getD_of_lt v k (by omega)]

theorem zipWith_windowDiff_getElem? (f : ℚ → ℚ → ℚ) (a b : List ℚ)
    (delta k : ℕ) (ha : delta + k < a.length) (hb : delta + k < b.length) :
    ((windowDiff a delta).zipWith f (windowDiff b delta))[k]? =
      some (f (a.getD (delta + k) 0 - a.getD k 0)
        (b.getD (delta + k) 0 - b.getD k 0)) := by
  rw [List.getElem?_zipWith, windowDiff_getElem? a delta k ha,
    windowDiff_getElem? b delta k hb]

theorem process_length (data : List Record) (delta : ℕ) (s : Strategy) :
    (process data delta s).length = data.length := by
  cases s <;>
    · simp [process, clearYest, windowDiff, List.length_zipWith]
      omega

/-- Index-wise characterization of `Estimator.process`: records before
index `delta` only lose their previous `y_est`; records from `delta` on
receive `y_est = yFormula`. -/
theorem process_getElem? (data : List Record) (delta : ℕ) (s : Strategy)
    (j : ℕ) (hj : j < data.length) :
    (process data delta s)[j]? =
      if j < delta then
        (data[j]?).map (fun r => { r with y_est := none })
      else
        (data[j]?).map (fun r =>
          { r with y_est := some (yFormula data delta s j) }) := by
  have hclr : (clearYest data)[j]? =
      (data[j]?).map (fun r => { r with y_est := none }) :=
    List.getElem?_map _ _ _
  have htklen : ((clearYest data).take delta).length =
      min delta data.length := by
    simp [clearYest]
  by_cases hlt : j < delta
  · rw [if_pos hlt]
    have hjtk : j < ((clearYest data).take delta).length := by omega
    cases s <;>
      · rw [process, List.getElem?_append_left hjtk, List.getElem?_take]
        simp only [hlt, if_pos]
        exact hclr
  · rw [if_neg hlt]
    push_neg at hlt
    have hdle : delta ≤ data.length := le_trans hlt (le_of_lt hj)
    have hjtk : ((clearYest data).take delta).length ≤ j := by omega
    obtain ⟨rr, hrr⟩ : ∃ rr, data[j]? = some rr :=
      ⟨_, List.getElem?_eq_some_iff.mpr ⟨hj, rfl⟩⟩
    have hadd : delta + (j - delta) = j := by omega
    have hdropj : ((clearYest data).drop delta)[j - delta]? =
        some { rr with y_est := none } := by
      rw [List.getElem?_drop, hadd, hclr, hrr]
      rfl
    cases s <;>
      · rw [process, List.getElem?_append_right hjtk, htklen,
          min_eq_left hdle, List.getElem?_zipWith, hdropj,
          zipWith_windowDiff_getElem? _ _ _ delta (j - delta)
            (by simp; omega) (by simp; omega),
          hadd, hrr]
        simp [yFormula]

end Frequency

/-- C4 counterexample: on a two-record dataset with `t1 = [0, 2]` and
`x_est = [0, 6]`, the two-way strategy with `delta = 1` attaches
`y_est[1] = Δx_est/Δt1 = 3`, not `(Δx_est − Δt1)/Δt1 = 2` as the
claim's uniform formula states. -/
theorem C4_counterexample :
    ((Frequency.process dataTwo 1 .twoWay).map Record.y_est =
      [none, some 3]) ∧ (3 : ℚ) ≠ (6 - 2) / 2 := by
  constructor
  · norm_num [Frequency.process, Frequency.clearYest, Frequency.windowDiff,
      dataTwo, mkRec]
  · norm_num

/-- C4 amended: for every strategy, window `delta > 0` and index
`j ≥ delta`, `Estimator.process` attaches to record `j` the estimate
`y_est[j] = (Δt2 − Δt1)/Δt1` (one-way), `(Δt3 − Δt4)/Δt4`
(one-way-reversed) or `Δx_est/Δt1` (two-way), each `Δ` being the
`delta`-windowed difference ending at index `j`; the estimate attaches
to the later index and the first `delta` records never receive
`y_est`. -/
theorem C4_process_estimates (data : List Record) (delta : ℕ)
    (hδ : 0 < delta) (strategy : Frequency.Strategy) :
    (Frequency.process data delta strategy).length = data.length ∧
    (∀ j, j < data.length → j < delta →
      ((Frequency.process data delta strategy)[j]?).map Record.y_est =
        some none) ∧
    (∀ j, j < data.length → delta ≤ j →
      ((Frequency.process data delta strategy)[j]?).map Record.y_est =
        some (some (Frequency.yFormula data delta strategy j))) := by
  refine ⟨Frequency.process_length data delta strategy, ?_, ?_⟩
  · intro j hj hlt
    rw [Frequency.process_getElem? data delta strategy j hj, if_pos hlt]
    obtain ⟨rr, hrr⟩ : ∃ rr, data[j]? = some rr :=
      ⟨_, List.getElem?_eq_some_iff.mpr ⟨hj, rfl⟩⟩
    rw [hrr]
    rfl
  · intro j hj hge
    rw [Frequency.process_getElem? data delta strategy j hj,
      if_neg (not_lt.mpr hge)]
    obtain ⟨rr, hrr⟩ : ∃ rr, data[j]? = some rr :=
      ⟨_, List.getElem?_eq_some_iff.mpr ⟨hj, rfl⟩⟩
    rw [hrr]
    rfl

/-- C4 witness: the amended characterization applied to the two-record
dataset with window 1 and the two-way strategy, evaluated at index 1. -/
theorem C4_process_estimates_witness :
    ((Frequency.process dataTwo 1 .twoWay)[1]?).map Record.y_est =
      some (some (Frequency.yFormula dataTwo 1 .twoWay 1)) :=
  (C4_process_estimates dataTwo 1 one_pos .twoWay).2.2 1 (by decide)
    (by decide)

/-! ## C7: main loop termination -/

namespace Sim

theorem tick_i_msg (delays : ℕ → ℚ) (st : SimState) :
    (tick delays st).i_msg = st.i_msg + 1 := rfl

theorem iterate_tick_i_msg (delays : ℕ → ℚ) :
    ∀ (k : ℕ) (st : SimState),
      ((tick delays)^[k] st).i_msg = st.i_msg + k := by
  intro k
  induction k with
  | zero => intro st; simp
  | succ k ih =>
      intro st
      rw [Function.iterate_succ_apply, ih, tick_i_msg]
      omega

theorem runLoop_out_of_fuel (delays : ℕ → ℚ) (n : ℕ) :
    ∀ (fuel : ℕ) (st : SimState), st.i_msg + fuel < n →
      runLoop delays n fuel st = none := by
  intro fuel
  induction fuel with
  | zero => intro st _; rfl
  | succ fuel ih =>
      intro st h
      rw [runLoop]
      rw [if_neg (by rw [tick_i_msg]; omega)]
      exact ih (tick delays st) (by rw [tick_i_msg]; omega)

theorem runLoop_exact (delays : ℕ → ℚ) (n : ℕ) :
    ∀ (fuel : ℕ) (st : SimState), 0 < fuel → st.i_msg + fuel = n →
      runLoop delays n fuel st = some ((tick delays)^[fuel] st) := by
  intro fuel
  induction fuel with
  | zero => intro st h; omega
  | succ fuel ih =>
      intro st _ h
      rw [runLoop]
      cases fuel with
      | zero =>
          rw [if_pos (by rw [tick_i_msg]; omega)]
          rfl
      | succ f =>
          rw [if_neg (by rw [tick_i_msg]; omega),
            ih (tick delays st) (Nat.succ_pos f) (by rw [tick_i_msg]; omega),
            ← Function.iterate_succ_apply]

end Sim

/-- C7 counterexample: with one configured iteration, a 1 ns time step,
zero-initialized RTCs and constant 1000 ns delays, the main loop stops
after its single tick with zero completed exchanges — the stop counter
`i_msg` counts loop iterations, not completed Sync/Delay_Req round
trips. -/
theorem C7_counterexample :
    ((Sim.runLoop (fun _ => 1000) 1 1
        (Sim.initState (1 / 10 ^ 9) 0 0 0 0 0 0)).map Sim.SimState.n_exch =
      some 0) ∧ (0 : ℕ) ≠ 1 := by
  constructor
  · norm_num [Sim.runLoop, Sim.tick, Sim.initState, Sim.PtpEvt.tx,
      Sim.PtpEvt.rx, Sim.PtpEvt.schedTx, Sim.ltInf, Sim.popMin,
      Sim.Rtc.init, Sim.Rtc.update, Sim.TimeReg.add]
  · decide

/-- C7 amended: for every `n_iter ≥ 1` and every time step, PDV oracle
and RTC initialization, the main loop terminates, and it terminates
after exactly `n_iter` iterations of the loop body (the count `i_msg`
of loop ticks reaching `n_iter`, regardless of how many exchanges have
completed). -/
theorem C7_run_terminates (n_iter : ℕ) (h1 : 1 ≤ n_iter)
    (sim_t_step : ℚ) (delays : ℕ → ℚ) (mSec sSec : ℤ)
    (mNs mPhase sNs sPhase : ℚ) :
    (∀ fuel, fuel < n_iter →
      Sim.runLoop delays n_iter fuel
        (Sim.initState sim_t_step mSec mNs mPhase sSec sNs sPhase) = none) ∧
    (∃ fin, Sim.runLoop delays n_iter n_iter
        (Sim.initState sim_t_step mSec mNs mPhase sSec sNs sPhase) =
          some fin ∧
      fin.i_msg = n_iter ∧
      fin = (Sim.tick delays)^[n_iter]
        (Sim.initState sim_t_step mSec mNs mPhase sSec sNs sPhase)) := by
  constructor
  · intro fuel hf
    exact Sim.runLoop_out_of_fuel delays n_iter fuel _
      (by simp [Sim.initState]; omega)
  · refine ⟨_, Sim.runLoop_exact delays n_iter n_iter _ (by omega)
      (by simp [Sim.initState]), ?_, rfl⟩
    rw [Sim.iterate_tick_i_msg]
    simp [Sim.initState]

/-- C7 witness: termination after exactly two ticks for `n_iter = 2`. -/
theorem C7_run_terminates_witness :
    ∃ fin, Sim.runLoop (fun _ => 1000) 2 2
        (Sim.initState (1 / 10 ^ 9) 0 0 0 0 0 0) = some fin ∧
      fin.i_msg = 2 ∧
      fin = (Sim.tick (fun _ => 1000))^[2]
        (Sim.initState (1 / 10 ^ 9) 0 0 0 0 0 0) :=
  (C7_run_terminates 2 (by norm_num) (1 / 10 ^ 9) (fun _ => 1000)
    0 0 0 0 0 0).2

/-! ## C9: cached loop configuration reuse -/

/-- C9: `optimize_loop` returns the cached `(damping, loopbw)` pair
without running the sweep exactly when a cache is supplied, `force` is
false and the cached entry exists with matching `n_samples` and error
criterion; a mismatched cached entry is ignored, so whenever a result is
produced it comes from the sweep and is saved back through the cache
with the current `n_samples` and criterion. -/
theorem C9_cache_reuse (data : List Record)
    (criterion : Frequency.Criterion) (loss : Frequency.Loss)
    (cache : Option (Option Frequency.LoopCfg)) (force : Bool)
    (max_transient : ℚ) :
    (∀ c, cache = some (some c) → force = false →
      c.n_samples = data.length → c.error = criterion →
      Frequency.optimize_loop data criterion loss cache force
          max_transient = some (.fromCache c.damping c.loopbw)) ∧
    (∀ d b, Frequency.optimize_loop data criterion loss cache force
          max_transient = some (.fromCache d b) →
      force = false ∧ ∃ c, cache = some (some c) ∧
        c.n_samples = data.length ∧ c.error = criterion ∧
        d = c.damping ∧ b = c.loopbw) ∧
    (∀ c, cache = some (some c) →
      (c.n_samples ≠ data.length ∨ c.error ≠ criterion) →
      ∀ out, Frequency.optimize_loop data criterion loss cache force
          max_transient = some out →
      ∃ bd bb d2, out =
        .swept bd bb d2 (some ⟨data.length, criterion, bd, bb⟩)) := by
  have hsweep : ∀ (hit : Option Frequency.LoopCfg), hit = none →
      (∀ out, (match hit with
        | some c =>
            some (Frequency.OptLoopOutcome.fromCache c.damping c.loopbw)
        | none =>
            match Frequency.loopCandidates.foldlM
                (Frequency.sweepStep criterion loss max_transient)
                ⟨none, none, none, data⟩ with
            | none => none
            | some fin =>
                match fin.best_damping, fin.best_loopbw with
                | some bd, some bb =>
                    some (Frequency.OptLoopOutcome.swept bd bb fin.data
                      (match cache with
                       | some _ => some ⟨data.length, criterion, bd, bb⟩
                       | none => none))
                | _, _ => none) = some out →
        ∃ fin bd bb, Frequency.loopCandidates.foldlM
            (Frequency.sweepStep criterion loss max_transient)
            ⟨none, none, none, data⟩ = some fin ∧
          fin.best_damping = some bd ∧ fin.best_loopbw = some bb ∧
          out = Frequency.OptLoopOutcome.swept bd bb fin.data
            (match cache with
             | some _ => some ⟨data.length, criterion, bd, bb⟩
             | none => none)) := by
    intro hit hhit out hout
    subst hhit
    rcases hF : Frequency.loopCandidates.foldlM
        (Frequency.sweepStep criterion loss max_transient)
        ⟨none, none, none, data⟩ with _ | fin
    · rw [hF] at hout
      simp at hout
    · rw [hF] at hout
      rcases hbd : fin.best_damping with _ | bd <;>
        rcases hbb : fin.best_loopbw with _ | bb <;>
          simp [hbd, hbb] at hout
      exact ⟨fin, bd, bb, rfl, hbd, hbb, hout.symm⟩
  refine ⟨?_, ?_, ?_⟩
  · intro c hc hf hn he
    subst hc
    subst hf
    simp [Frequency.optimize_loop, Frequency.isCfgLoopValid, hn, he]
  · intro d b hout
    rcases cache with _ | co
    · rw [Frequency.optimize_loop] at hout
      obtain ⟨fin, bd, bb, hF, hbd, hbb, hswept⟩ :=
        hsweep none rfl _ hout
      simp at hswept
    · rcases co with _ | c
      · rw [Frequency.optimize_loop] at hout
        simp only [Option.isSome_none, Bool.false_and] at hout
        obtain ⟨fin, bd, bb, hF, hbd, hbb, hswept⟩ :=
          hsweep none rfl _ hout
        simp at hswept
      · cases force with
        | true =>
            rw [Frequency.optimize_loop] at hout
            simp only [Option.isSome_some, Bool.not_true,
              Bool.and_false] at hout
            obtain ⟨fin, bd, bb, hF, hbd, hbb, hswept⟩ :=
              hsweep none rfl _ hout
            simp at hswept
        | false =>
            rcases hv : Frequency.isCfgLoopValid (some c) data.length
                criterion with _ | _
            · rw [Frequency.optimize_loop] at hout
              simp only [Option.isSome_some, Bool.not_false,
                Bool.and_true, if_true, hv, Bool.false_eq_true,
                if_false] at hout
              obtain ⟨fin, bd, bb, hF, hbd, hbb, hswept⟩ :=
                hsweep none rfl _ hout
              simp at hswept
            · rw [Frequency.optimize_loop] at hout
              simp only [Option.isSome_some, Bool.not_false,
                Bool.and_true, if_true, hv] at hout
              have hmatch : c.n_samples = data.length ∧
                  c.error = criterion := by
                simpa [Frequency.isCfgLoopValid] using hv
              refine ⟨rfl, c, rfl, hmatch.1, hmatch.2, ?_, ?_⟩ <;>
                · simp at hout
                  tauto
  · intro c hc hmm out hout
    subst hc
    have hv : Frequency.isCfgLoopValid (some c) data.length
        criterion = false := by
      rcases hmm with h | h <;> simp [Frequency.isCfgLoopValid, h]
    rw [Frequency.optimize_loop] at hout
    simp only [Option.isSome_some, hv, Bool.false_eq_true,
      if_false, ite_self] at hout
    obtain ⟨fin, bd, bb, hF, hbd, hbb, hswept⟩ := hsweep none rfl _ hout
    exact ⟨bd, bb, fin.data, hswept⟩

/-- C9 witness: a matching cached entry for the four-record dataset is
returned directly. -/
theorem C9_cache_reuse_witness :
    Frequency.optimize_loop dataFour .cumulative .mse
        (some (some ⟨4, .cumulative, 1, 1 / 100⟩)) false (1 / 5) =
      some (.fromCache 1 (1 / 100)) :=
  (C9_cache_reuse dataFour .cumulative .mse
    (some (some ⟨4, .cumulative, 1, 1 / 100⟩)) false (1 / 5)).1
    ⟨4, .cumulative, 1, 1 / 100⟩ rfl rfl (by decide) rfl


/-! ## C10: frame effects of the optimizers -/

namespace Frequency

theorem process_map_field (d : List Record) (n : ℕ) (s : Strategy)
    (f : Record → ℚ) (hf : ∀ r y, f { r with y_est := y } = f r) :
    (process d n s).map f = d.map f := by
  apply List.ext_getElem?
  intro i
  rw [List.getElem?_map, List.getElem?_map]
  by_cases hi : i < d.length
  · rw [process_getElem? d n s i hi]
    obtain ⟨rr, hrr⟩ : ∃ rr, d[i]? = some rr :=
      ⟨_, List.getElem?_eq_some_iff.mpr ⟨hi, rfl⟩⟩
    rw [hrr]
    split_ifs <;> simp [hf]
  · rw [List.getElem?_eq_none (by rw [process_length]; omega),
      List.getElem?_eq_none (by omega)]

theorem yFormula_congr (X Y : List Record)
    (h1 : X.map Record.t1 = Y.map Record.t1)
    (h2 : X.map Record.t2 = Y.map Record.t2)
    (h3 : X.map Record.t3 = Y.map Record.t3)
    (h4 : X.map Record.t4 = Y.map Record.t4)
    (hx : X.map Record.x_est = Y.map Record.x_est)
    (n : ℕ) (s : Strategy) (j : ℕ) :
    yFormula X n s j = yFormula Y n s j := by
  cases s <;> simp only [yFormula, h1, h2, h3, h4, hx]

theorem yFormula_process (d : List Record) (n : ℕ) (s : Strategy)
    (m : ℕ) (s2 : Strategy) (j : ℕ) :
    yFormula (process d n s) m s2 j = yFormula d m s2 j :=
  yFormula_congr _ _ (process_map_field d n s _ (fun _ _ => rfl))
    (process_map_field d n s _ (fun _ _ => rfl))
    (process_map_field d n s _ (fun _ _ => rfl))
    (process_map_field d n s _ (fun _ _ => rfl))
    (process_map_field d n s _ (fun _ _ => rfl)) m s2 j

theorem yFormula_clearYest (d : List Record) (n : ℕ) (s : Strategy)
    (j : ℕ) : yFormula (clearYest d) n s j = yFormula d n s j := by
  refine yFormula_congr _ _ ?_ ?_ ?_ ?_ ?_ n s j <;>
    · rw [clearYest, List.map_map]
      rfl

theorem yFormula_map_stripYD (d : List Record) (n : ℕ) (s : Strategy)
    (j : ℕ) : yFormula (d.map stripYD) n s j = yFormula d n s j := by
  refine yFormula_congr _ _ ?_ ?_ ?_ ?_ ?_ n s j <;>
    · rw [List.map_map]
      rfl

theorem process_process (d : List Record) (n m : ℕ) (s s2 : Strategy) :
    process (process d n s) m s2 = process d m s2 := by
  apply List.ext_getElem?
  intro i
  by_cases hi : i < d.length
  · rw [process_getElem? _ m s2 i (by rw [process_length]; exact hi),
      process_getElem? d m s2 i hi, yFormula_process,
      process_getElem? d n s i hi]
    obtain ⟨rr, hrr⟩ : ∃ rr, d[i]? = some rr :=
      ⟨_, List.getElem?_eq_some_iff.mpr ⟨hi, rfl⟩⟩
    rw [hrr]
    by_cases him : i < m <;> by_cases hin : i < n <;>
      simp [him, hin]
  · rw [List.getElem?_eq_none (by rw [process_length, process_length]; omega),
      List.getElem?_eq_none (by rw [process_length]; omega)]

theorem process_clearYest (d : List Record) (n : ℕ) (s : Strategy) :
    process (clearYest d) n s = process d n s := by
  apply List.ext_getElem?
  intro i
  by_cases hi : i < d.length
  · rw [process_getElem? _ n s i (by simp [clearYest]; exact hi),
      process_getElem? d n s i hi, yFormula_clearYest]
    rw [show (clearYest d)[i]? =
      (d[i]?).map (fun r => { r with y_est := none }) from
        List.getElem?_map _ _ _]
    obtain ⟨rr, hrr⟩ : ∃ rr, d[i]? = some rr :=
      ⟨_, List.getElem?_eq_some_iff.mpr ⟨hi, rfl⟩⟩
    rw [hrr]
    by_cases him : i < n <;> simp [him]
  · rw [List.getElem?_eq_none
        (by rw [process_length]; simp [clearYest]; omega),
      List.getElem?_eq_none (by rw [process_length]; omega)]

theorem estimateDriftAux_length (rs : List Record) :
    ∀ prev, (estimateDriftAux prev rs).length = rs.length := by
  induction rs with
  | nil => intro prev; rfl
  | cons r rest ih =>
      intro prev
      simp only [estimateDriftAux, List.length_cons, ih]

theorem estimate_drift_length (l : List Record) :
    (estimate_drift l).length = l.length := by
  cases l with
  | nil => rfl
  | cons r rest =>
      simp [estimate_drift, clearDrift, estimateDriftAux_length]

/-- Index-wise characterization of `estimateDriftAux`: only the `t1` of
the predecessor matters, and records lacking `y_est` pass through. -/
theorem estimateDriftAux_getElem? :
    ∀ (rs : List Record) (prev : Record) (j : ℕ), j < rs.length →
      (estimateDriftAux prev rs)[j]? = (rs[j]?).map (fun r =>
        match r.y_est with
        | some y => { r with drift := some (y * (r.t1 -
            (if j = 0 then prev else rs.getD (j - 1) default).t1)) }
        | none => r) := by
  intro rs
  induction rs with
  | nil => intro prev j h; simp at h
  | cons r rest ih =>
      intro prev j h
      cases j with
      | zero =>
          cases hy : r.y_est <;>
            simp [estimateDriftAux, hy]
      | succ j =>
          have hj : j < rest.length := by simpa using h
          have hstep : (estimateDriftAux prev (r :: rest))[j + 1]? =
              (estimateDriftAux (match r.y_est with
                | some y =>
                    { r with drift := some (y * (r.t1 - prev.t1)) }
                | none => r) rest)[j]? := by
            simp only [estimateDriftAux, List.getElem?_cons_succ]
          rw [hstep, ih _ j hj, List.getElem?_cons_succ]
          congr 1
          funext rr
          have ht1 : (if j = 0 then
              (match r.y_est with
               | some y => { r with drift := some (y * (r.t1 - prev.t1)) }
               | none => r)
              else rest.getD (j - 1) default).t1 =
              ((r :: rest).getD (j + 1 - 1) default).t1 := by
            cases j with
            | zero =>
                simp only [if_pos rfl, Nat.add_sub_cancel]
                cases hy : r.y_est <;> simp [hy, List.getD_cons_zero]
            | succ k =>
                simp [List.getD_cons_succ]
          rw [ht1]
          simp

/-- Index-wise characterization of `Estimator.estimate_drift`: record 0
only loses its previous `drift`; record `j ≥ 1` receives
`drift = y_est * (t1[j] - t1[j-1])` when it carries `y_est` and loses
`drift` otherwise. -/
theorem estimate_drift_getElem? (l : List Record) (j : ℕ)
    (hj : j < l.length) :
    (estimate_drift l)[j]? = (l[j]?).map (fun r =>
      if j = 0 then { r with drift := none }
      else match r.y_est with
        | some y => { r with drift := some (y * (r.t1 -
            (l.getD (j - 1) default).t1)) }
        | none => { r with drift := none }) := by
  cases l with
  | nil => simp at hj
  | cons r0 rest =>
      have hestd : estimate_drift (r0 :: rest) =
          { r0 with drift := none } ::
            estimateDriftAux { r0 with drift := none }
              (clearDrift rest) := rfl
      rw [hestd]
      cases j with
      | zero => simp
      | succ j =>
          have hj1 : j < rest.length := by simpa using hj
          rw [List.getElem?_cons_succ, List.getElem?_cons_succ,
            estimateDriftAux_getElem? (clearDrift rest) _ j
              (by simpa [clearDrift] using hj1)]
          rw [show (clearDrift rest)[j]? =
            (rest[j]?).map (fun r => { r with drift := none }) from
              List.getElem?_map _ _ _]
          obtain ⟨rr, hrr⟩ : ∃ rr, rest[j]? = some rr :=
            ⟨_, List.getElem?_eq_some_iff.mpr ⟨hj1, rfl⟩⟩
          rw [hrr]
          simp only [Option.map_some']
          congr 1
          rw [if_neg (Nat.succ_ne_zero j)]
          have ht1 : (if j = 0 then ({ r0 with drift := none } : Record)
              else (clearDrift rest).getD (j - 1) default).t1 =
              ((r0 :: rest).getD (j + 1 - 1) default).t1 := by
            cases j with
            | zero => simp
            | succ k =>
                have hk : k < rest.length := by omega
                simp only [if_neg (Nat.succ_ne_zero k),
                  Nat.add_sub_cancel, Nat.succ_sub_one,
                  List.getD_cons_succ, clearDrift]
                rw [List.getD_eq_getElem _ _ (by simpa using hk),
                  List.getD_eq_getElem _ _ hk, List.getElem_map]
          cases hy : rr.y_est with
          | none => simp [hy]
          | some y =>
              simp only [hy]
              rw [ht1]

theorem map_stripYD_process (d : List Record) (n : ℕ) (s : Strategy) :
    (process d n s).map stripYD = d.map stripYD := by
  apply List.ext_getElem?
  intro i
  rw [List.getElem?_map, List.getElem?_map]
  by_cases hi : i < d.length
  · rw [process_getElem? d n s i hi]
    obtain ⟨rr, hrr⟩ : ∃ rr, d[i]? = some rr :=
      ⟨_, List.getElem?_eq_some_iff.mpr ⟨hi, rfl⟩⟩
    rw [hrr]
    split_ifs <;> rfl
  · rw [List.getElem?_eq_none (by rw [process_length]; omega),
      List.getElem?_eq_none (by omega)]

theorem map_stripYD_estimate_drift (l : List Record) :
    (estimate_drift l).map stripYD = l.map stripYD := by
  apply List.ext_getElem?
  intro i
  rw [List.getElem?_map, List.getElem?_map]
  by_cases hi : i < l.length
  · rw [estimate_drift_getElem? l i hi]
    obtain ⟨rr, hrr⟩ : ∃ rr, l[i]? = some rr :=
      ⟨_, List.getElem?_eq_some_iff.mpr ⟨hi, rfl⟩⟩
    rw [hrr]
    simp only [Option.map_some']
    congr 1
    split_ifs
    · rfl
    · cases hy : rr.y_est <;> rfl
  · rw [List.getElem?_eq_none (by rw [estimate_drift_length]; omega),
      List.getElem?_eq_none (by omega)]

theorem map_stripYD_stripYD (l : List Record) :
    (l.map stripYD).map stripYD = l.map stripYD := by
  rw [List.map_map]
  rfl

theorem clearDrift_process_stripYD (d : List Record) (c : ℕ)
    (s : Strategy) :
    clearDrift (process (d.map stripYD) c s) =
      clearDrift (process d c s) := by
  apply List.ext_getElem?
  intro i
  rw [clearDrift, List.getElem?_map, clearDrift, List.getElem?_map]
  by_cases hi : i < d.length
  · rw [process_getElem? _ c s i (by simpa using hi),
      process_getElem? d c s i hi, yFormula_map_stripYD,
      List.getElem?_map]
    obtain ⟨rr, hrr⟩ : ∃ rr, d[i]? = some rr :=
      ⟨_, List.getElem?_eq_some_iff.mpr ⟨hi, rfl⟩⟩
    rw [hrr]
    split_ifs <;> rfl
  · rw [List.getElem?_eq_none (by rw [process_length]; simp; omega),
      List.getElem?_eq_none (by rw [process_length]; omega)]

theorem estimate_drift_process_stripYD (d : List Record) (c : ℕ) :
    estimate_drift (process (d.map stripYD) c .twoWay) =
      estimate_drift (process d c .twoWay) := by
  rw [estimate_drift, estimate_drift, clearDrift_process_stripYD]

theorem clearLoop_loopAux :
    ∀ (rs : List Record) (Kp Ki : ℚ) (ist : ℤ) (i : ℕ) (f d : ℚ),
      clearLoop (loopAux Kp Ki ist i f d rs) = clearLoop rs := by
  intro rs
  induction rs with
  | nil => intro Kp Ki ist i f d; rfl
  | cons r rest ih =>
      intro Kp Ki ist i f d
      simp only [loopAux, clearLoop, List.map_cons]
      refine congrArg₂ List.cons ?_ ?_
      · split_ifs <;> rfl
      · exact ih Kp Ki ist (i + 1) _ _

theorem clearLoop_clearLoop (l : List Record) :
    clearLoop (clearLoop l) = clearLoop l := by
  rw [clearLoop, clearLoop, List.map_map]
  rfl

theorem loop_congr (X Y : List Record) (h : clearLoop X = clearLoop Y)
    (p q s : ℚ) : loop X p q s = loop Y p q s := by
  cases X with
  | nil =>
      cases Y with
      | nil => rfl
      | cons y ys => exact absurd (congrArg List.length h) (by simp [clearLoop])
  | cons x xs =>
      cases Y with
      | nil => exact absurd (congrArg List.length h) (by simp [clearLoop])
      | cons y ys =>
          have hx : x.x_est = y.x_est := by
            have h0 := congrArg (fun l => ((l.getD 0 default).x_est)) h
            simpa [clearLoop] using h0
          have hlen : (((x :: xs).length : ℕ) : ℚ) =
              (((y :: ys).length : ℕ) : ℚ) := by
            have hL := congrArg List.length h
            simp only [clearLoop, List.length_map] at hL
            rw [hL]
          simp only [loop]
          rw [hx, h, hlen]

theorem clearLoop_of_loop {X : List Record} {p q s : ℚ}
    {out : List Record} (h : loop X p q s = some out) :
    clearLoop out = clearLoop X := by
  cases X with
  | nil => simp [loop] at h
  | cons x xs =>
      simp only [loop, Option.some_inj] at h
      rw [← h, clearLoop_loopAux, clearLoop_clearLoop]

theorem sweepStep_data (criterion : Criterion) (loss : Loss) (mt : ℚ)
    (st st1 : SweepState) (p : ℚ × ℚ)
    (h : sweepStep criterion loss mt st p = some st1) :
    loop st.data p.1 p.2 mt = some st1.data := by
  unfold sweepStep at h
  rcases hl : loop st.data p.1 p.2 mt with _ | d1
  · rw [hl] at h; simp at h
  · rw [hl] at h
    rcases hm : st.m_error with _ | m <;> rw [hm] at h <;> dsimp only at h
    · obtain rfl := Option.some_inj.mp h
      rfl
    · split_ifs at h <;>
        · obtain rfl := Option.some_inj.mp h
          rfl

/-- The dataset threaded through the loop-parameter sweep ends up as the
PI-loop output of the last candidate applied to the original dataset. -/
theorem sweep_fold_data (criterion : Criterion) (loss : Loss) (mt : ℚ) :
    ∀ (ps : List (ℚ × ℚ)) (st fin : SweepState),
      ps.foldlM (sweepStep criterion loss mt) st = some fin →
      ps = [] ∨ ∃ pl, ps.getLast? = some pl ∧
        loop st.data pl.1 pl.2 mt = some fin.data := by
  intro ps
  induction ps with
  | nil => intro st fin _; exact Or.inl rfl
  | cons p rest ih =>
      intro st fin h
      right
      rw [List.foldlM_cons] at h
      rcases hs : sweepStep criterion loss mt st p with _ | st1
      · rw [hs] at h; simp at h
      · rw [hs] at h
        rw [show (some st1 >>= fun st' =>
          rest.foldlM (sweepStep criterion loss mt) st') =
            rest.foldlM (sweepStep criterion loss mt) st1 from rfl] at h
        have hd1 : loop st.data p.1 p.2 mt = some st1.data :=
          sweepStep_data criterion loss mt st st1 p hs
        cases rest with
        | nil =>
            simp only [List.foldlM_nil] at h
            cases h
            exact ⟨p, rfl, hd1⟩
        | cons q qs =>
            rcases ih st1 fin h with hemp | ⟨pl, hpl, hout⟩
            · exact absurd hemp (by simp)
            · refine ⟨pl, ?_, ?_⟩
              · rw [List.getLast?_cons_cons]
                exact hpl
              · rw [← hout]
                exact loop_congr st.data st1.data
                  (clearLoop_of_loop hd1).symm pl.1 pl.2 mt

theorem yStep_data (loss : Loss) (ns : ℕ)
    (st : Option ℚ × ℕ × List Record) (c : ℕ) :
    (yStep loss ns st c).2.2 = process st.2.2 c .twoWay := by
  rcases hm : st.1 with _ | m <;>
    simp only [yStep, hm] <;>
    rw [process_clearYest] <;>
    first
    | rfl
    | (split_ifs <;> rfl)

theorem foldl_yStep_data (loss : Loss) (ns : ℕ) :
    ∀ (cands : List ℕ) (st : Option ℚ × ℕ × List Record),
      cands = [] ∨ ∃ last, cands.getLast? = some last ∧
        (cands.foldl (yStep loss ns) st).2.2 =
          process st.2.2 last .twoWay := by
  intro cands
  induction cands with
  | nil => intro st; exact Or.inl rfl
  | cons c rest ih =>
      intro st
      right
      rw [List.foldl_cons]
      rcases ih (yStep loss ns st c) with hemp | ⟨last, hlast, hdata⟩
      · subst hemp
        exact ⟨c, rfl, yStep_data loss ns st c⟩
      · cases rest with
        | nil => simp at hlast
        | cons q qs =>
            refine ⟨last, by rw [List.getLast?_cons_cons]; exact hlast, ?_⟩
            rw [hdata, yStep_data loss ns st c, process_process]

theorem driftStep_data (loss : Loss) (criterion : Criterion) (ns : ℕ)
    (st : Option ℚ × ℕ × List Record) (c : ℕ) :
    (driftStep loss criterion ns st c).2.2 =
      estimate_drift (process (st.2.2.map stripYD) c .twoWay) := by
  rcases hm : st.1 with _ | m <;>
    simp only [driftStep, hm] <;>
    first
    | rfl
    | (split_ifs <;> rfl)

theorem foldl_driftStep_data (loss : Loss) (criterion : Criterion)
    (ns : ℕ) :
    ∀ (cands : List ℕ) (st : Option ℚ × ℕ × List Record),
      cands = [] ∨ ∃ last, cands.getLast? = some last ∧
        (cands.foldl (driftStep loss criterion ns) st).2.2 =
          estimate_drift (process (st.2.2.map stripYD) last .twoWay) := by
  intro cands
  induction cands with
  | nil => intro st; exact Or.inl rfl
  | cons c rest ih =>
      intro st
      right
      rw [List.foldl_cons]
      rcases ih (driftStep loss criterion ns st c) with
        hemp | ⟨last, hlast, hdata⟩
      · subst hemp
        exact ⟨c, rfl, driftStep_data loss criterion ns st c⟩
      · cases rest with
        | nil => simp at hlast
        | cons q qs =>
            refine ⟨last, by rw [List.getLast?_cons_cons]; exact hlast, ?_⟩
            rw [hdata, driftStep_data loss criterion ns st c]
            congr 1
            rw [map_stripYD_estimate_drift, map_stripYD_process,
              map_stripYD_stripYD]

end Frequency

/-- C10: after each optimizer returns, the derived fields stored in the
dataset are those written while evaluating the last candidate of the
sweep — the y_est of `process` with the largest window for the window
searches (plus the drift of `estimate_drift` for `optimize_to_drift`),
and the drift/x_loop of the PI loop run with the final
`(damping, loopbw)` grid pair for `optimize_loop` — not the estimates of
the winning candidate; only the returned `delta` (or parameter pair)
reflects the winner. -/
theorem C10_frame_effects :
    (∀ (data : List Record) (loss : Frequency.Loss) (span : ℚ)
        (res : Frequency.OptResult),
      Frequency.optimize_to_y data loss span = some res →
      ∃ last, (Frequency.windowCandidates span data.length).getLast? =
          some last ∧
        res.data = Frequency.process data last .twoWay) ∧
    (∀ (data : List Record) (loss : Frequency.Loss)
        (criterion : Frequency.Criterion) (span : ℚ)
        (res : Frequency.OptResult),
      Frequency.optimize_to_drift data loss criterion span = some res →
      ∃ last, (Frequency.windowCandidates span data.length).getLast? =
          some last ∧
        res.data = Frequency.estimate_drift
          (Frequency.process data last .twoWay)) ∧
    (∀ (data : List Record) (criterion : Frequency.Criterion)
        (loss : Frequency.Loss) (cache : Option (Option Frequency.LoopCfg))
        (force : Bool) (mt bd bb : ℚ) (d2 : List Record)
        (saved : Option Frequency.LoopCfg),
      Frequency.optimize_loop data criterion loss cache force mt =
        some (.swept bd bb d2 saved) →
      ∃ pl, Frequency.loopCandidates.getLast? = some pl ∧
        Frequency.loop data pl.1 pl.2 mt = some d2) := by
  refine ⟨?_, ?_, ?_⟩
  · intro data loss span res hres
    rw [Frequency.optimize_to_y] at hres
    rcases hL : (Frequency.windowCandidates span data.length).getLast?
        with _ | maxw <;> rw [hL] at hres <;> dsimp only at hres
    · simp at hres
    · by_cases hlen : data.length ≤ maxw
      · rw [if_pos hlen] at hres
        simp at hres
      · rw [if_neg hlen] at hres
        obtain rfl := (Option.some_inj.mp hres).symm
        rcases Frequency.foldl_yStep_data loss
            (data.length - maxw)
            (Frequency.windowCandidates span data.length)
            (none, 0, data) with hemp | ⟨last, hlast, hdata⟩
        · rw [hemp] at hL
          simp at hL
        · exact ⟨last, by rw [← hL]; exact hlast, hdata⟩
  · intro data loss criterion span res hres
    rw [Frequency.optimize_to_drift] at hres
    rcases hL : (Frequency.windowCandidates span data.length).getLast?
        with _ | maxw <;> rw [hL] at hres <;> dsimp only at hres
    · simp at hres
    · by_cases hlen : data.length ≤ maxw
      · rw [if_pos hlen] at hres
        simp at hres
      · rw [if_neg hlen] at hres
        obtain rfl := (Option.some_inj.mp hres).symm
        rcases Frequency.foldl_driftStep_data loss criterion
            (data.length - maxw)
            (Frequency.windowCandidates span data.length)
            (none, 0, data) with hemp | ⟨last, hlast, hdata⟩
        · rw [hemp] at hL
          simp at hL
        · refine ⟨last, by rw [← hL]; exact hlast, ?_⟩
          rw [hdata, Frequency.estimate_drift_process_stripYD]
  · intro data criterion loss cache force mt bd bb d2 saved hopt
    have hswe : ∀ (hit : Option Frequency.LoopCfg), hit = none →
        (match hit with
          | some c =>
              some (Frequency.OptLoopOutcome.fromCache c.damping c.loopbw)
          | none =>
              match Frequency.loopCandidates.foldlM
                  (Frequency.sweepStep criterion loss mt)
                  ⟨none, none, none, data⟩ with
              | none => none
              | some fin =>
                  match fin.best_damping, fin.best_loopbw with
                  | some bd1, some bb1 =>
                      some (Frequency.OptLoopOutcome.swept bd1 bb1 fin.data
                        (match cache with
                         | some _ =>
                             some ⟨data.length, criterion, bd1, bb1⟩
                         | none => none))
                  | _, _ => none) =
          some (Frequency.OptLoopOutcome.swept bd bb d2 saved) →
        ∃ pl, Frequency.loopCandidates.getLast? = some pl ∧
          Frequency.loop data pl.1 pl.2 mt = some d2 := by
      intro hit hhit hopt2
      subst hhit
      rcases hF : Frequency.loopCandidates.foldlM
          (Frequency.sweepStep criterion loss mt)
          ⟨none, none, none, data⟩ with _ | fin
      · rw [hF] at hopt2
        simp at hopt2
      · rw [hF] at hopt2
        rcases hbd : fin.best_damping with _ | bd1 <;>
          rcases hbb : fin.best_loopbw with _ | bb1 <;>
            simp [hbd, hbb] at hopt2
        rcases Frequency.sweep_fold_data criterion loss mt
            Frequency.loopCandidates ⟨none, none, none, data⟩ fin hF with
          hemp | ⟨pl, hpl, hout⟩
        · rw [hemp, List.foldlM_nil] at hF
          obtain rfl := Option.some_inj.mp hF
          simp at hbd
        · refine ⟨pl, hpl, ?_⟩
          rw [hout]
          simp only [Option.some_inj]
          tauto
    rcases cache with _ | co
    · rw [Frequency.optimize_loop] at hopt
      exact hswe none rfl hopt
    · rcases co with _ | c
      · rw [Frequency.optimize_loop] at hopt
        simp only [Option.isSome_none, Bool.false_and] at hopt
        exact hswe none rfl hopt
      · cases force with
        | true =>
            rw [Frequency.optimize_loop] at hopt
            simp only [Option.isSome_some, Bool.not_true,
              Bool.and_false] at hopt
            exact hswe none rfl hopt
        | false =>
            rcases hv : Frequency.isCfgLoopValid (some c) data.length
                criterion with _ | _
            · rw [Frequency.optimize_loop] at hopt
              simp only [Option.isSome_some, Bool.not_false,
                Bool.and_true, if_true, hv, Bool.false_eq_true,
                if_false] at hopt
              exact hswe none rfl hopt
            · rw [Frequency.optimize_loop] at hopt
              simp only [Option.isSome_some, Bool.not_false,
                Bool.and_true, if_true, hv] at hopt
              simp at hopt

/-! ## C3: window-length search -/

namespace Frequency

theorem clearYest_process (d : List Record) (n : ℕ) (s : Strategy) :
    clearYest (process d n s) = clearYest d := by
  rw [clearYest, clearYest]
  apply List.ext_getElem?
  intro i
  rw [List.getElem?_map, List.getElem?_map]
  by_cases hi : i < d.length
  · rw [process_getElem? d n s i hi]
    obtain ⟨rr, hrr⟩ : ∃ rr, d[i]? = some rr :=
      ⟨_, List.getElem?_eq_some_iff.mpr ⟨hi, rfl⟩⟩
    rw [hrr]
    split_ifs <;> rfl
  · rw [List.getElem?_eq_none (by rw [process_length]; omega),
      List.getElem?_eq_none (by omega)]

theorem clearYest_clearYest (l : List Record) :
    clearYest (clearYest l) = clearYest l := by
  simp only [clearYest, List.map_map]
  rfl

/-- Best-so-far update of the brute-force searches, parameterized by the
score each candidate receives. -/
def argminStep (score : ℕ → ℚ) (p : Option ℚ × ℕ) (N : ℕ) :
    Option ℚ × ℕ :=
  match p.1 with
  | none => (some (score N), N)
  | some m => if score N < m then (some (score N), N) else p

theorem argmin_go (score : ℕ → ℚ) :
    ∀ (cands : List ℕ) (m : ℚ) (N0 : ℕ),
      ∃ e N1, cands.foldl (argminStep score) (some m, N0) = (some e, N1) ∧
        ((e = m ∧ N1 = N0) ∨ (N1 ∈ cands ∧ e = score N1)) ∧ e ≤ m ∧
        ∀ N ∈ cands, e ≤ score N := by
  intro cands
  induction cands with
  | nil =>
      intro m N0
      exact ⟨m, N0, rfl, Or.inl ⟨rfl, rfl⟩, le_rfl, by simp⟩
  | cons c rest ih =>
      intro m N0
      rw [List.foldl_cons]
      by_cases hc : score c < m
      · rw [show argminStep score (some m, N0) c = (some (score c), c) from
          by simp [argminStep, hc]]
        obtain ⟨e, N1, heq, hsrc, hle, hall⟩ := ih (score c) c
        refine ⟨e, N1, heq, ?_, le_trans hle (le_of_lt hc), ?_⟩
        · rcases hsrc with ⟨he, hN⟩ | ⟨hN, he⟩
          · exact Or.inr ⟨by rw [hN]; exact List.mem_cons_self c rest,
              by rw [he, hN]⟩
          · exact Or.inr ⟨List.mem_cons_of_mem c hN, he⟩
        · intro N hN
          rcases List.mem_cons.mp hN with rfl | hN2
          · exact hle
          · exact hall N hN2
      · rw [show argminStep score (some m, N0) c = (some m, N0) from
          by simp [argminStep, hc]]
        obtain ⟨e, N1, heq, hsrc, hle, hall⟩ := ih m N0
        refine ⟨e, N1, heq, ?_, hle, ?_⟩
        · rcases hsrc with ⟨he, hN⟩ | ⟨hN, he⟩
          · exact Or.inl ⟨he, hN⟩
          · exact Or.inr ⟨List.mem_cons_of_mem c hN, he⟩
        · intro N hN
          rcases List.mem_cons.mp hN with rfl | hN2
          · exact le_trans hle (not_lt.mp hc)
          · exact hall N hN2

theorem argmin_spec (score : ℕ → ℚ) (c : ℕ) (rest : List ℕ) :
    ∃ e N1, (c :: rest).foldl (argminStep score) (none, 0) = (some e, N1) ∧
      N1 ∈ c :: rest ∧ e = score N1 ∧ ∀ N ∈ c :: rest, e ≤ score N := by
  rw [List.foldl_cons,
    show argminStep score (none, 0) c = (some (score c), c) from rfl]
  obtain ⟨e, N1, heq, hsrc, hle, hall⟩ := argmin_go score rest (score c) c
  refine ⟨e, N1, heq, ?_, ?_, ?_⟩
  · rcases hsrc with ⟨_, hN⟩ | ⟨hN, _⟩
    · rw [hN]; exact List.mem_cons_self c rest
    · exact List.mem_cons_of_mem c hN
  · rcases hsrc with ⟨he, hN⟩ | ⟨_, he⟩
    · rw [he, hN]
    · exact he
  · intro N hN
    rcases List.mem_cons.mp hN with rfl | hN2
    · exact hle
    · exact hall N hN2

theorem foldl_yStep_eq_pure (loss : Loss) (ns : ℕ) :
    ∀ (cands : List ℕ) (st : Option ℚ × ℕ × List Record)
      (base : List Record), clearYest st.2.2 = clearYest base →
      ((cands.foldl (yStep loss ns) st).1,
        (cands.foldl (yStep loss ns) st).2.1) =
        cands.foldl (argminStep
          (fun N => yScore loss (process base N .twoWay) N ns))
          (st.1, st.2.1) := by
  intro cands
  induction cands with
  | nil => intro st base _; rfl
  | cons c rest ih =>
      intro st base hcl
      rw [List.foldl_cons, List.foldl_cons]
      have he : yScore loss (process (clearYest st.2.2) c .twoWay) c ns =
          yScore loss (process base c .twoWay) c ns := by
        rw [hcl, process_clearYest]
      have hpair : ((yStep loss ns st c).1, (yStep loss ns st c).2.1) =
          argminStep (fun N => yScore loss (process base N .twoWay) N ns)
            (st.1, st.2.1) c := by
        rcases hm : st.1 with _ | m <;>
          simp only [yStep, argminStep, hm] <;> rw [he]
        split_ifs <;> rfl
      have hcl' : clearYest (yStep loss ns st c).2.2 = clearYest base := by
        rw [yStep_data, clearYest_process, hcl]
      rw [ih (yStep loss ns st c) base hcl', hpair]

theorem foldl_driftStep_eq_pure (loss : Loss) (criterion : Criterion)
    (ns : ℕ) :
    ∀ (cands : List ℕ) (st : Option ℚ × ℕ × List Record)
      (base : List Record), st.2.2.map stripYD = base.map stripYD →
      ((cands.foldl (driftStep loss criterion ns) st).1,
        (cands.foldl (driftStep loss criterion ns) st).2.1) =
        cands.foldl (argminStep (fun N => driftScore loss criterion
          (estimate_drift (process base N .twoWay)) ns))
          (st.1, st.2.1) := by
  intro cands
  induction cands with
  | nil => intro st base _; rfl
  | cons c rest ih =>
      intro st base hcl
      rw [List.foldl_cons, List.foldl_cons]
      have he : driftScore loss criterion
          (estimate_drift (process (st.2.2.map stripYD) c .twoWay)) ns =
          driftScore loss criterion
            (estimate_drift (process base c .twoWay)) ns := by
        rw [hcl, estimate_drift_process_stripYD]
      have hpair : ((driftStep loss criterion ns st c).1,
          (driftStep loss criterion ns st c).2.1) =
          argminStep (fun N => driftScore loss criterion
            (estimate_drift (process base N .twoWay)) ns)
            (st.1, st.2.1) c := by
        rcases hm : st.1 with _ | m <;>
          simp only [driftStep, argminStep, hm] <;> rw [he]
        split_ifs <;> rfl
      have hcl' : (driftStep loss criterion ns st c).2.2.map stripYD =
          base.map stripYD := by
        rw [driftStep_data, map_stripYD_estimate_drift,
          map_stripYD_process, map_stripYD_stripYD, hcl]
      rw [ih (driftStep loss criterion ns st c) base hcl', hpair]

/-- Membership characterization of the window-length candidate set:
exactly the powers `2 ^ k` for `1 ≤ k ≤ floor(log2(span·n))`. -/
theorem windowCandidates_mem (span : ℚ) (n N : ℕ) :
    N ∈ windowCandidates span n ↔
      ∃ k : ℕ, 1 ≤ k ∧ (k : ℤ) ≤ floorLog2 (span * (n : ℚ)) ∧
        N = 2 ^ k := by
  simp only [windowCandidates, List.mem_map, List.mem_range'_1]
  constructor
  · rintro ⟨k, ⟨hk1, hk2⟩, rfl⟩
    exact ⟨k, hk1, by omega, rfl⟩
  · rintro ⟨k, hk1, hk2, rfl⟩
    exact ⟨k, ⟨hk1, by omega⟩, rfl⟩

/-- The upper candidate exponent is the floor base-2 logarithm: for
`q ≥ 1`, `2 ^ floorLog2 q ≤ q < 2 ^ (floorLog2 q + 1)`. -/
theorem floorLog2_spec (q : ℚ) (hq : 1 ≤ q) :
    0 ≤ floorLog2 q ∧
      (2 : ℚ) ^ (floorLog2 q).toNat ≤ q ∧
      q < 2 ^ ((floorLog2 q).toNat + 1) := by
  have h1 : (1 : ℤ) ≤ ⌊q⌋ := Int.le_floor.mpr (by exact_mod_cast hq)
  have hm1 : 1 ≤ ⌊q⌋.toNat := by omega
  have hfl : (⌊q⌋.toNat : ℚ) = ((⌊q⌋ : ℤ) : ℚ) := by
    have h2 := Int.toNat_of_nonneg (show (0 : ℤ) ≤ ⌊q⌋ by omega)
    exact_mod_cast congrArg (fun z : ℤ => (z : ℚ)) h2
  rw [floorLog2, if_pos hq]
  have htn : ((Nat.log 2 ⌊q⌋.toNat : ℤ)).toNat = Nat.log 2 ⌊q⌋.toNat := rfl
  rw [htn]
  refine ⟨by positivity, ?_, ?_⟩
  · have hp := Nat.pow_log_le_self 2 (show ⌊q⌋.toNat ≠ 0 by omega)
    have hp2 : ((2 : ℚ)) ^ Nat.log 2 ⌊q⌋.toNat ≤ (⌊q⌋.toNat : ℚ) := by
      exact_mod_cast hp
    calc (2 : ℚ) ^ Nat.log 2 ⌊q⌋.toNat ≤ (⌊q⌋.toNat : ℚ) := hp2
      _ = ((⌊q⌋ : ℤ) : ℚ) := hfl
      _ ≤ q := Int.floor_le q
  · have hp := Nat.lt_pow_succ_log_self (by norm_num : 1 < 2) ⌊q⌋.toNat
    have hp2 : (⌊q⌋.toNat : ℚ) + 1 ≤ 2 ^ (Nat.log 2 ⌊q⌋.toNat + 1) := by
      exact_mod_cast hp
    calc q < ((⌊q⌋ : ℤ) : ℚ) + 1 := Int.lt_floor_add_one q
      _ = (⌊q⌋.toNat : ℚ) + 1 := by rw [hfl]
      _ ≤ 2 ^ (Nat.log 2 ⌊q⌋.toNat + 1) := hp2

theorem filterMap_eq_map_of_forall {α β : Type} (f : α → Option β)
    (g : α → β) : ∀ (l : List α), (∀ a ∈ l, f a = some (g a)) →
      l.filterMap f = l.map g := by
  intro l
  induction l with
  | nil => intro _; rfl
  | cons a l ih =>
      intro h
      rw [List.filterMap_cons, h a (List.mem_cons_self a l), List.map_cons,
        ih (fun b hb => h b (List.mem_cons_of_mem a hb))]

theorem filterMap_eq_nil_of_forall {α β : Type} (f : α → Option β) :
    ∀ (l : List α), (∀ a ∈ l, f a = none) → l.filterMap f = [] := by
  intro l
  induction l with
  | nil => intro _; rfl
  | cons a l ih =>
      intro h
      rw [List.filterMap_cons, h a (List.mem_cons_self a l),
        ih (fun b hb => h b (List.mem_cons_of_mem a hb))]

/-- The `optimize_to_y` error slice `y_err[:n_samples]` of a candidate
window `N` covers exactly the records `N .. N + n_samples - 1` — the
first `n_samples` estimates, not the trailing ones. -/
theorem yErr_take_characterization (data : List Record) (N ns : ℕ)
    (hrtc : ∀ r ∈ data, r.rtc_y.isSome = true) (hN : 0 < N)
    (hbound : N + ns ≤ data.length) :
    (yErrList (process data N .twoWay) N).take ns =
      (List.range ns).map (fun j =>
        10 ^ 9 * (yFormula data N .twoWay (N + j) -
          ((data.getD (N + j) default).rtc_y).getD 0)) := by
  have hfm : ((process data N .twoWay).drop N).filterMap (fun r =>
      match r.y_est, r.rtc_y with
      | some y, some t => some ((10 : ℚ) ^ 9 * (y - t))
      | _, _ => none) =
      ((process data N .twoWay).drop N).map (fun r =>
        10 ^ 9 * ((r.y_est).getD 0 - (r.rtc_y).getD 0)) := by
    apply filterMap_eq_map_of_forall
    intro r hr
    obtain ⟨i, hi⟩ := List.mem_iff_getElem?.mp hr
    rw [List.getElem?_drop] at hi
    have hlt : N + i < data.length := by
      by_contra hge
      rw [List.getElem?_eq_none (by rw [process_length]; omega)] at hi
      exact Option.noConfusion hi
    rw [process_getElem? data N .twoWay (N + i) hlt,
      if_neg (by omega)] at hi
    obtain ⟨rr, hrr⟩ : ∃ rr, data[N + i]? = some rr :=
      ⟨_, List.getElem?_eq_some_iff.mpr ⟨hlt, rfl⟩⟩
    rw [hrr] at hi
    obtain rfl := Option.some_inj.mp hi
    obtain ⟨t, ht⟩ := Option.isSome_iff_exists.mp
      (hrtc rr (List.mem_iff_getElem?.mpr ⟨N + i, hrr⟩))
    simp [ht]
  rw [yErrList, hfm, ← List.map_take]
  apply List.ext_getElem?
  intro j
  rw [List.getElem?_map, List.getElem?_map]
  by_cases hj : j < ns
  · rw [List.getElem?_take, if_pos hj, List.getElem?_drop,
      List.getElem?_range hj,
      process_getElem? data N .twoWay (N + j) (by omega),
      if_neg (by omega)]
    obtain ⟨rr, hrr⟩ : ∃ rr, data[N + j]? = some rr :=
      ⟨_, List.getElem?_eq_some_iff.mpr ⟨by omega, rfl⟩⟩
    rw [hrr]
    have hgd : data.getD (N + j) default = rr := by
      rw [List.getD_eq_getElem _ _ (by omega : N + j < data.length)]
      exact (List.getElem?_eq_some_iff.mp hrr).2
    simp only [Option.map_some']
    rw [hgd]
    rfl
  · rw [List.getElem?_eq_none (by
      rw [List.length_take]
      omega)]
    rw [List.getElem?_eq_none (by rw [List.length_range]; omega)]
    rfl

theorem getD_of_getElem? {l : List Record} {i : ℕ} {r : Record}
    (h : l[i]? = some r) : l.getD i default = r := by
  obtain ⟨hb, hv⟩ := List.getElem?_eq_some_iff.mp h
  rw [List.getD_eq_getElem _ _ hb]
  exact hv

theorem process_getD_t1 (data : List Record) (N : ℕ) (s : Strategy)
    (i : ℕ) (hi : i < data.length) :
    ((process data N s).getD i default).t1 = (data.getD i default).t1 := by
  obtain ⟨rr, hrr⟩ : ∃ rr, data[i]? = some rr :=
    ⟨_, List.getElem?_eq_some_iff.mpr ⟨hi, rfl⟩⟩
  have hP := process_getElem? data N s i hi
  rw [hrr] at hP
  rw [getD_of_getElem? hrr]
  by_cases hiN : i < N <;> simp only [hiN, if_pos, if_neg, ite_true,
      ite_false] at hP
  all_goals
    rw [getD_of_getElem? (by simpa using hP)]

/-- Drift value stored by `estimate_drift ∘ process` at an index below
the window: always absent. -/
theorem estDrift_drift_lo (data : List Record) (N i : ℕ) (hN : 1 ≤ N)
    (hiN : i < N) (hi : i < data.length) :
    (((estimate_drift (process data N .twoWay))[i]?).map Record.drift) =
      some none := by
  rw [estimate_drift_getElem? _ i (by rw [process_length]; exact hi),
    process_getElem? data N .twoWay i hi, if_pos hiN]
  obtain ⟨rr, hrr⟩ : ∃ rr, data[i]? = some rr :=
    ⟨_, List.getElem?_eq_some_iff.mpr ⟨hi, rfl⟩⟩
  rw [hrr]
  simp only [Option.map_some']
  split_ifs <;> rfl

/-- Drift value stored by `estimate_drift ∘ process` at an index inside
the estimation range: the product of the frequency estimate and the `t1`
step. -/
theorem estDrift_drift_hi (data : List Record) (N i : ℕ) (hN : 1 ≤ N)
    (hNi : N ≤ i) (hi : i < data.length) :
    (((estimate_drift (process data N .twoWay))[i]?).map Record.drift) =
      some (some (yFormula data N .twoWay i *
        ((data.getD i default).t1 - (data.getD (i - 1) default).t1))) := by
  rw [estimate_drift_getElem? _ i (by rw [process_length]; exact hi),
    process_getElem? data N .twoWay i hi, if_neg (by omega)]
  obtain ⟨rr, hrr⟩ : ∃ rr, data[i]? = some rr :=
    ⟨_, List.getElem?_eq_some_iff.mpr ⟨hi, rfl⟩⟩
  rw [hrr]
  simp only [Option.map_some']
  rw [if_neg (by omega : ¬ i = 0)]
  have ht1p : ((process data N .twoWay).getD (i - 1) default).t1 =
      (data.getD (i - 1) default).t1 :=
    process_getD_t1 data N .twoWay (i - 1) (by omega)
  have hgd : data.getD i default = rr := getD_of_getElem? hrr
  simp only [ht1p, hgd]

theorem estDrift_x (data : List Record) (N i : ℕ)
    (hi : i < data.length) :
    (((estimate_drift (process data N .twoWay))[i]?).map Record.x) =
      (data[i]?).map Record.x := by
  rw [estimate_drift_getElem? _ i (by rw [process_length]; exact hi),
    process_getElem? data N .twoWay i hi]
  obtain ⟨rr, hrr⟩ : ∃ rr, data[i]? = some rr :=
    ⟨_, List.getElem?_eq_some_iff.mpr ⟨hi, rfl⟩⟩
  rw [hrr]
  by_cases hiN : i < N <;>
    simp only [hiN, ite_true, ite_false, Option.map_some'] <;>
      split_ifs <;>
        first
        | rfl
        | (cases hy : (rr.y_est) <;> simp [hy])

theorem estDrift_length (data : List Record) (N : ℕ) :
    (estimate_drift (process data N .twoWay)).length = data.length := by
  rw [estimate_drift_length, process_length]

/-- The drift estimates present in the dataset after
`process`/`estimate_drift` with window `N`: exactly one per record index
`N .. len-1`, in order. -/
theorem driftEstList_eq (data : List Record) (N : ℕ) (hN : 1 ≤ N)
    (hNlen : N ≤ data.length) :
    driftEstList (estimate_drift (process data N .twoWay)) =
      (List.range (data.length - N)).map (fun j =>
        yFormula data N .twoWay (N + j) *
          ((data.getD (N + j) default).t1 -
            (data.getD (N + j - 1) default).t1)) := by
  have hDlen := estDrift_length data N
  rw [driftEstList,
    ← List.take_append_drop N (estimate_drift (process data N .twoWay)),
    List.filterMap_append]
  rw [filterMap_eq_nil_of_forall _ _ (by
    intro a ha
    obtain ⟨i, hi⟩ := List.mem_iff_getElem?.mp ha
    rw [List.getElem?_take] at hi
    by_cases hiN : i < N
    · rw [if_pos hiN] at hi
      have hilen : i < data.length := by
        by_contra hge
        rw [List.getElem?_eq_none (by omega)] at hi
        exact Option.noConfusion hi
      have := estDrift_drift_lo data N i hN hiN hilen
      rw [hi] at this
      simpa using this
    · rw [if_neg hiN] at hi
      exact Option.noConfusion hi)]
  rw [filterMap_eq_map_of_forall _ (fun r => (r.drift).getD 0) _ (by
    intro a ha
    obtain ⟨i, hi⟩ := List.mem_iff_getElem?.mp ha
    rw [List.getElem?_drop] at hi
    have hilen : N + i < data.length := by
      by_contra hge
      rw [List.getElem?_eq_none (by omega)] at hi
      exact Option.noConfusion hi
    have := estDrift_drift_hi data N (N + i) hN (by omega) hilen
    rw [hi] at this
    simp only [Option.map_some', Option.some_inj] at this
    simp only [this, Option.getD_some])]
  rw [List.nil_append]
  apply List.ext_getElem?
  intro j
  rw [List.getElem?_map, List.getElem?_map]
  by_cases hj : j < data.length - N
  · rw [List.getElem?_drop, List.getElem?_range hj]
    have hilen : N + j < data.length := by omega
    have hhi := estDrift_drift_hi data N (N + j) hN (by omega) hilen
    obtain ⟨dd, hdd⟩ : ∃ dd,
        (estimate_drift (process data N .twoWay))[N + j]? = some dd :=
      ⟨_, List.getElem?_eq_some_iff.mpr ⟨by omega, rfl⟩⟩
    rw [hdd] at hhi
    rw [hdd]
    simp only [Option.map_some', Option.some_inj] at hhi ⊢
    rw [hhi]
    rfl
  · rw [List.getElem?_eq_none (by rw [List.length_drop]; omega),
      List.getElem?_eq_none (by rw [List.length_range]; omega)]
    rfl

theorem enum_getElem? (l : List Record) (i : ℕ) :
    l.enum[i]? = (l[i]?).map (fun r => (i, r)) := by
  rw [List.enum_eq_zip_range, List.zip]
  rw [List.getElem?_zipWith]
  by_cases hi : i < l.length
  · rw [List.getElem?_range hi]
    obtain ⟨rr, hrr⟩ : ∃ rr, l[i]? = some rr :=
      ⟨_, List.getElem?_eq_some_iff.mpr ⟨hi, rfl⟩⟩
    rw [hrr]
    rfl
  · rw [List.getElem?_eq_none (by rw [List.length_range]; omega),
      List.getElem?_eq_none (by omega)]
    rfl

/-- The instantaneous true drifts paired with the stored drift
estimates: one per record index `N .. len-1`, each the `x` step from the
previous record (no wraparound, since index 0 never carries a drift). -/
theorem trueDriftList_eq (data : List Record) (N : ℕ) (hN : 1 ≤ N)
    (hNlen : N ≤ data.length) :
    trueDriftList (estimate_drift (process data N .twoWay)) =
      (List.range (data.length - N)).map (fun j =>
        (data.getD (N + j) default).x -
          (data.getD (N + j - 1) default).x) := by
  have hDlen := estDrift_length data N
  rw [trueDriftList,
    ← List.take_append_drop N
      (estimate_drift (process data N .twoWay)).enum,
    List.filterMap_append]
  rw [filterMap_eq_nil_of_forall _ _ (by
    intro a ha
    obtain ⟨i, hi⟩ := List.mem_iff_getElem?.mp ha
    rw [List.getElem?_take] at hi
    by_cases hiN : i < N
    · rw [if_pos hiN, enum_getElem? _ i] at hi
      rcases hD : (estimate_drift (process data N .twoWay))[i]? with _ | dd
      · rw [hD] at hi
        exact Option.noConfusion hi
      · rw [hD] at hi
        obtain rfl := Option.some_inj.mp hi
        have hilen : i < data.length := by
          obtain ⟨hb, -⟩ := List.getElem?_eq_some_iff.mp hD
          omega
        have hlo := estDrift_drift_lo data N i hN hiN hilen
        rw [hD] at hlo
        simp only [Option.map_some', Option.some_inj] at hlo
        simp [hlo]
    · rw [if_neg hiN] at hi
      exact Option.noConfusion hi)]
  rw [filterMap_eq_map_of_forall _ (fun p =>
    p.2.x - ((estimate_drift (process data N .twoWay)).getD
      (prevIdx (estimate_drift (process data N .twoWay)).length p.1)
      default).x) _ (by
    intro a ha
    obtain ⟨i, hi⟩ := List.mem_iff_getElem?.mp ha
    rw [List.getElem?_drop, enum_getElem? _ (N + i)] at hi
    rcases hD : (estimate_drift (process data N .twoWay))[N + i]?
        with _ | dd
    · rw [hD] at hi
      exact Option.noConfusion hi
    · rw [hD] at hi
      obtain rfl := Option.some_inj.mp hi
      have hilen : N + i < data.length := by
        obtain ⟨hb, -⟩ := List.getElem?_eq_some_iff.mp hD
        omega
      have hhi := estDrift_drift_hi data N (N + i) hN (by omega) hilen
      rw [hD] at hhi
      simp only [Option.map_some', Option.some_inj] at hhi
      simp [hhi])]
  rw [List.nil_append]
  apply List.ext_getElem?
  intro j
  rw [List.getElem?_map, List.getElem?_map]
  by_cases hj : j < data.length - N
  · rw [List.getElem?_drop, enum_getElem? _ (N + j),
      List.getElem?_range hj]
    obtain ⟨dd, hdd⟩ : ∃ dd,
        (estimate_drift (process data N .twoWay))[N + j]? = some dd :=
      ⟨_, List.getElem?_eq_some_iff.mpr ⟨by omega, rfl⟩⟩
    rw [hdd]
    simp only [Option.map_some', Option.some_inj]
    have hx1 : dd.x = (data.getD (N + j) default).x := by
      have := estDrift_x data N (N + j) (by omega)
      rw [hdd] at this
      obtain ⟨rr, hrr⟩ : ∃ rr, data[N + j]? = some rr :=
        ⟨_, List.getElem?_eq_some_iff.mpr ⟨by omega, rfl⟩⟩
      rw [hrr] at this
      simp only [Option.map_some', Option.some_inj] at this
      rw [this, getD_of_getElem? hrr]
    have hprev : prevIdx (estimate_drift (process data N .twoWay)).length
        (N + j) = N + j - 1 := by
      rw [prevIdx, if_neg (by omega)]
    have hx2 : ((estimate_drift (process data N .twoWay)).getD
        (N + j - 1) default).x = (data.getD (N + j - 1) default).x := by
      have hb : N + j - 1 < data.length := by omega
      obtain ⟨dd2, hdd2⟩ : ∃ dd2,
          (estimate_drift (process data N .twoWay))[N + j - 1]? =
            some dd2 :=
        ⟨_, List.getElem?_eq_some_iff.mpr ⟨by omega, rfl⟩⟩
      have := estDrift_x data N (N + j - 1) hb
      rw [hdd2] at this
      obtain ⟨rr2, hrr2⟩ : ∃ rr2, data[N + j - 1]? = some rr2 :=
        ⟨_, List.getElem?_eq_some_iff.mpr ⟨hb, rfl⟩⟩
      rw [hrr2] at this
      simp only [Option.map_some', Option.some_inj] at this
      rw [getD_of_getElem? hdd2, getD_of_getElem? hrr2, this]
    rw [hx1, hprev, hx2]
  · rw [List.getElem?_eq_none (by
      rw [List.length_drop, List.enum_length]
      omega),
      List.getElem?_eq_none (by rw [List.length_range]; omega)]
    rfl

theorem zipWith_sub_map_range (m : ℕ) (f g : ℕ → ℚ) :
    ((List.range m).map f).zipWith (fun a b => a - b)
      ((List.range m).map g) =
      (List.range m).map (fun j => f j - g j) := by
  apply List.ext_getElem?
  intro j
  rw [List.getElem?_zipWith, List.getElem?_map, List.getElem?_map,
    List.getElem?_map]
  by_cases hj : j < m
  · rw [List.getElem?_range hj]
    rfl
  · rw [List.getElem?_eq_none (by rw [List.length_range]; omega)]
    rfl

theorem drop_map_range (m k : ℕ) (f : ℕ → ℚ) (hk : k ≤ m) :
    ((List.range m).map f).drop k =
      (List.range (m - k)).map (fun j => f (k + j)) := by
  apply List.ext_getElem?
  intro j
  by_cases hj : j < m - k
  · rw [List.getElem?_drop, List.getElem?_map, List.getElem?_map,
      List.getElem?_range (by omega), List.getElem?_range hj]
    rfl
  · rw [List.getElem?_eq_none (by
      rw [List.length_drop, List.length_map, List.length_range]
      omega),
      List.getElem?_eq_none (by
        rw [List.length_map, List.length_range]
        omega)]

/-- The sliced error vector scored by `optimize_to_drift` under the
instantaneous criterion covers exactly the trailing records
`len - n_samples .. len - 1`, independently of the candidate window. -/
theorem drift_tail_characterization (data : List Record) (N ns : ℕ)
    (hN : 1 ≤ N) (hns : 0 < ns) (hbound : N + ns ≤ data.length) :
    tailSlice ns
      ((driftEstList (estimate_drift (process data N .twoWay))).zipWith
        (fun a b => a - b)
        (trueDriftList (estimate_drift (process data N .twoWay)))) =
      (List.range ns).map (fun j =>
        yFormula data N .twoWay (data.length - ns + j) *
          ((data.getD (data.length - ns + j) default).t1 -
            (data.getD (data.length - ns + j - 1) default).t1) -
          ((data.getD (data.length - ns + j) default).x -
            (data.getD (data.length - ns + j - 1) default).x)) := by
  rw [driftEstList_eq data N hN (by omega),
    trueDriftList_eq data N hN (by omega),
    zipWith_sub_map_range, tailSlice, if_neg (by omega),
    List.length_map, List.length_range,
    drop_map_range (data.length - N) (data.length - N - ns) _ (by omega)]
  have hsz : data.length - N - (data.length - N - ns) = ns := by omega
  rw [hsz]
  apply List.map_congr_left
  intro j hj
  have e1 : N + (data.length - N - ns + j) = data.length - ns + j := by
    omega
  rw [e1]

/-- The largest window-length candidate (`window_len[-1]`) is
`2 ^ floor(log2(span·n))` whenever the candidate list is non-empty. -/
theorem windowCandidates_getLast? (span : ℚ) (n : ℕ)
    (h1 : 1 ≤ (floorLog2 (span * (n : ℚ))).toNat) :
    (windowCandidates span n).getLast? =
      some (2 ^ (floorLog2 (span * (n : ℚ))).toNat) := by
  simp only [windowCandidates]
  rw [List.getLast?_map]
  obtain ⟨t, ht⟩ : ∃ t, (floorLog2 (span * (n : ℚ))).toNat = t + 1 :=
    ⟨(floorLog2 (span * (n : ℚ))).toNat - 1, by omega⟩
  rw [ht, List.range'_concat, List.getLast?_concat]
  simp only [Option.map_some', Option.some_inj]
  congr 1
  omega

theorem windowCandidates_length (span : ℚ) (n : ℕ) :
    (windowCandidates span n).length =
      (floorLog2 (span * (n : ℚ))).toNat := by
  rw [windowCandidates, List.length_map, List.length_range']

/-- Modelled from the spec: the spec states that every candidate is
scored "on the same trailing n_samples"; this score slices the error
vector from the end (`tailSlice`) instead of the source's leading slice
(`take` in `yScore`). -/
def ySpecScore (loss : Loss) (data : List Record)
    (delta n_samples : ℕ) : ℚ :=
  lossOf loss (tailSlice n_samples (yErrList data delta))

/-- Modelled from the spec: one candidate evaluation of the spec's
window search for `optimize_to_y`, identical to `yStep` except for the
trailing slice taken by `ySpecScore`. -/
def ySpecStep (loss : Loss) (n_samples : ℕ)
    (st : Option ℚ × ℕ × List Record) (N : ℕ) :
    Option ℚ × ℕ × List Record :=
  let d' := process (clearYest st.2.2) N .twoWay
  let error := ySpecScore loss d' N n_samples
  match st.1 with
  | none => (some error, N, d')
  | some m =>
      if error < m then (some error, N, d') else (st.1, st.2.1, d')

/-- Modelled from the spec: `optimize_to_y` as the spec describes it,
with every candidate scored on the trailing `n_samples` entries of its
error vector. -/
def optimize_to_y_trailing (data : List Record) (loss : Loss)
    (max_window_span : ℚ) : Option OptResult :=
  let window_len := windowCandidates max_window_span data.length
  match window_len.getLast? with
  | none => none
  | some max_window_len =>
      if data.length ≤ max_window_len then none
      else
        let n_samples := data.length - max_window_len
        let fin := window_len.foldl (ySpecStep loss n_samples)
          (none, 0, data)
        some { delta := fin.2.1, data := fin.2.2 }

theorem floorLog2_five :
    floorLog2 ((1 / 2 : ℚ) * ((10 : ℕ) : ℚ)) = 2 := by
  rw [show ((1 / 2 : ℚ) * ((10 : ℕ) : ℚ)) = 5 by norm_num, floorLog2,
    if_pos (by norm_num), show ⌊(5 : ℚ)⌋ = 5 by norm_num,
    show (5 : ℤ).toNat = 5 from rfl,
    show Nat.log 2 5 = 2 from
      Nat.log_eq_of_pow_le_of_lt_pow (by norm_num) (by norm_num)]
  rfl

theorem windowCandidates_ten :
    windowCandidates (1 / 2 : ℚ) 10 = [2, 4] := by
  simp only [windowCandidates]
  rw [floorLog2_five]
  rfl

end Frequency

/-- Ten-record dataset with `t1 = i`, a late step in `x_est` and true
`rtc_y = 0` throughout: a window of 2 sees the step only in its last two
estimates, so the leading slice scored by `optimize_to_y` misses it
while the spec's trailing slice contains it. -/
def data10 : List Record :=
  [mkRec 0 0 0 0 0 0 (some 0), mkRec 1 0 0 0 0 0 (some 0),
   mkRec 2 0 0 0 0 0 (some 0), mkRec 3 0 0 0 0 0 (some 0),
   mkRec 4 0 0 0 0 0 (some 0), mkRec 5 0 0 0 0 0 (some 0),
   mkRec 6 0 0 0 0 0 (some 0), mkRec 7 0 0 0 0 0 (some 0),
   mkRec 8 0 0 0 8 0 (some 0), mkRec 9 0 0 0 8 0 (some 0)]

/-- C3 (corrected): the candidate set of the window-length search is
exactly `Δ = 2^k` for `1 ≤ k ≤ floor(log2(span·len))`; every candidate
is scored on the same `n_samples = len - 2^k_max` entries of its error
vector and the returned `delta` minimizes the score over the candidate
set — but `optimize_to_y` scores the FIRST `n_samples` entries of
`y_err` (covering records `N .. N+n_samples-1`), while only
`optimize_to_drift` scores a trailing slice (under the instantaneous
criterion, the records `len-n_samples .. len-1`). -/
theorem C3_window_search (data : List Record) (loss : Frequency.Loss)
    (criterion : Frequency.Criterion) (span : ℚ) (c : ℕ) (rest : List ℕ)
    (hc : Frequency.windowCandidates span data.length = c :: rest)
    (hrtc : ∀ r ∈ data, (r.rtc_y).isSome = true)
    (hlen : 2 ^ (Frequency.floorLog2
      (span * (data.length : ℚ))).toNat < data.length) :
    (∀ N, N ∈ Frequency.windowCandidates span data.length ↔
      ∃ k : ℕ, 1 ≤ k ∧
        (k : ℤ) ≤ Frequency.floorLog2 (span * (data.length : ℚ)) ∧
        N = 2 ^ k) ∧
    (∃ res, Frequency.optimize_to_y data loss span = some res ∧
      res.delta ∈ Frequency.windowCandidates span data.length ∧
      ∀ N ∈ Frequency.windowCandidates span data.length,
        Frequency.yScore loss (Frequency.process data res.delta .twoWay)
            res.delta (data.length - 2 ^ (Frequency.floorLog2
              (span * (data.length : ℚ))).toNat) ≤
          Frequency.yScore loss (Frequency.process data N .twoWay) N
            (data.length - 2 ^ (Frequency.floorLog2
              (span * (data.length : ℚ))).toNat)) ∧
    (∀ N ∈ Frequency.windowCandidates span data.length,
      (Frequency.yErrList (Frequency.process data N .twoWay) N).take
          (data.length - 2 ^ (Frequency.floorLog2
            (span * (data.length : ℚ))).toNat) =
        (List.range (data.length - 2 ^ (Frequency.floorLog2
            (span * (data.length : ℚ))).toNat)).map (fun j =>
          10 ^ 9 * (Frequency.yFormula data N .twoWay (N + j) -
            ((data.getD (N + j) default).rtc_y).getD 0))) ∧
    (∃ res2, Frequency.optimize_to_drift data loss criterion span =
        some res2 ∧
      res2.delta ∈ Frequency.windowCandidates span data.length ∧
      ∀ N ∈ Frequency.windowCandidates span data.length,
        Frequency.driftScore loss criterion (Frequency.estimate_drift
            (Frequency.process data res2.delta .twoWay))
            (data.length - 2 ^ (Frequency.floorLog2
              (span * (data.length : ℚ))).toNat) ≤
          Frequency.driftScore loss criterion (Frequency.estimate_drift
            (Frequency.process data N .twoWay))
            (data.length - 2 ^ (Frequency.floorLog2
              (span * (data.length : ℚ))).toNat)) ∧
    (∀ N ∈ Frequency.windowCandidates span data.length,
      Frequency.tailSlice
          (data.length - 2 ^ (Frequency.floorLog2
            (span * (data.length : ℚ))).toNat)
          ((Frequency.driftEstList (Frequency.estimate_drift
              (Frequency.process data N .twoWay))).zipWith
            (fun a b => a - b)
            (Frequency.trueDriftList (Frequency.estimate_drift
              (Frequency.process data N .twoWay)))) =
        (List.range (data.length - 2 ^ (Frequency.floorLog2
            (span * (data.length : ℚ))).toNat)).map (fun j =>
          Frequency.yFormula data N .twoWay
              (data.length - (data.length - 2 ^ (Frequency.floorLog2
                (span * (data.length : ℚ))).toNat) + j) *
            ((data.getD (data.length - (data.length -
                2 ^ (Frequency.floorLog2
                  (span * (data.length : ℚ))).toNat) + j)
                default).t1 -
              (data.getD (data.length - (data.length -
                2 ^ (Frequency.floorLog2
                  (span * (data.length : ℚ))).toNat) + j - 1)
                default).t1) -
            ((data.getD (data.length - (data.length -
                2 ^ (Frequency.floorLog2
                  (span * (data.length : ℚ))).toNat) + j)
                default).x -
              (data.getD (data.length - (data.length -
                2 ^ (Frequency.floorLog2
                  (span * (data.length : ℚ))).toNat) + j - 1)
                default).x))) := by
  have ht1 : 1 ≤ (Frequency.floorLog2 (span * (data.length : ℚ))).toNat := by
    have := congrArg List.length hc
    rw [Frequency.windowCandidates_length] at this
    rw [this]
    simp
  have hlast := Frequency.windowCandidates_getLast? span data.length ht1
  have hmemk : ∀ N ∈ Frequency.windowCandidates span data.length,
      ∃ k : ℕ, 1 ≤ k ∧
        k ≤ (Frequency.floorLog2 (span * (data.length : ℚ))).toNat ∧
        N = 2 ^ k := by
    intro N hN
    obtain ⟨k, hk1, hk2, rfl⟩ :=
      (Frequency.windowCandidates_mem span data.length N).mp hN
    exact ⟨k, hk1, by omega, rfl⟩
  have hNle : ∀ N ∈ Frequency.windowCandidates span data.length,
      1 ≤ N ∧ N ≤ 2 ^ (Frequency.floorLog2
        (span * (data.length : ℚ))).toNat := by
    intro N hN
    obtain ⟨k, hk1, hk2, rfl⟩ := hmemk N hN
    exact ⟨Nat.one_le_two_pow,
      Nat.pow_le_pow_right (by norm_num) hk2⟩
  refine ⟨Frequency.windowCandidates_mem span data.length, ?_, ?_, ?_, ?_⟩
  · simp only [Frequency.optimize_to_y]
    rw [hlast]
    dsimp only
    rw [if_neg (by omega), hc]
    have hfold := Frequency.foldl_yStep_eq_pure loss
      (data.length - 2 ^ (Frequency.floorLog2
        (span * (data.length : ℚ))).toNat)
      (Frequency.windowCandidates span data.length)
      (none, 0, data) data rfl
    rw [hc] at hfold
    obtain ⟨e, N1, heq, hmem, hes, hmin⟩ := Frequency.argmin_spec
      (fun N => Frequency.yScore loss (Frequency.process data N .twoWay) N
        (data.length - 2 ^ (Frequency.floorLog2
          (span * (data.length : ℚ))).toNat)) c rest
    rw [heq] at hfold
    have hN1 : ((c :: rest).foldl
        (Frequency.yStep loss (data.length - 2 ^ (Frequency.floorLog2
          (span * (data.length : ℚ))).toNat)) (none, 0, data)).2.1 = N1 :=
      congrArg Prod.snd hfold
    refine ⟨_, rfl, ?_, ?_⟩
    · rw [hN1]
      exact hmem
    · intro N hN
      rw [hN1]
      calc Frequency.yScore loss (Frequency.process data N1 .twoWay) N1
            (data.length - 2 ^ (Frequency.floorLog2
              (span * (data.length : ℚ))).toNat) = e := hes.symm
        _ ≤ _ := hmin N hN
  · intro N hN
    obtain ⟨hN1, hNmax⟩ := hNle N hN
    exact Frequency.yErr_take_characterization data N _ hrtc
      (by omega) (by omega)
  · simp only [Frequency.optimize_to_drift]
    rw [hlast]
    dsimp only
    rw [if_neg (by omega), hc]
    have hfold := Frequency.foldl_driftStep_eq_pure loss criterion
      (data.length - 2 ^ (Frequency.floorLog2
        (span * (data.length : ℚ))).toNat)
      (Frequency.windowCandidates span data.length)
      (none, 0, data) data rfl
    rw [hc] at hfold
    obtain ⟨e, N1, heq, hmem, hes, hmin⟩ := Frequency.argmin_spec
      (fun N => Frequency.driftScore loss criterion
        (Frequency.estimate_drift (Frequency.process data N .twoWay))
        (data.length - 2 ^ (Frequency.floorLog2
          (span * (data.length : ℚ))).toNat)) c rest
    rw [heq] at hfold
    have hN1 : ((c :: rest).foldl
        (Frequency.driftStep loss criterion
          (data.length - 2 ^ (Frequency.floorLog2
            (span * (data.length : ℚ))).toNat)) (none, 0, data)).2.1 = N1 :=
      congrArg Prod.snd hfold
    refine ⟨_, rfl, ?_, ?_⟩
    · rw [hN1]
      exact hmem
    · intro N hN
      rw [hN1]
      calc Frequency.driftScore loss criterion (Frequency.estimate_drift
            (Frequency.process data N1 .twoWay))
            (data.length - 2 ^ (Frequency.floorLog2
              (span * (data.length : ℚ))).toNat) = e := hes.symm
        _ ≤ _ := hmin N hN
  · intro N hN
    obtain ⟨hN1, hNmax⟩ := hNle N hN
    exact Frequency.drift_tail_characterization data N _ hN1
      (by omega) (by omega)

/-- C3 counterexample: on `data10` (span 1/2, candidates {2,4}),
`optimize_to_y` scores the leading `n_samples = 6` entries of `y_err`
and returns `delta = 2`, while the spec's trailing-slice scoring selects
`delta = 4`; for the window 2 the leading and trailing slices of the
error vector differ. -/
theorem C3_counterexample :
    (Frequency.optimize_to_y data10 Frequency.Loss.mse (1 / 2)).map
        Frequency.OptResult.delta = some 2 ∧
    (Frequency.optimize_to_y_trailing data10 Frequency.Loss.mse
        (1 / 2)).map Frequency.OptResult.delta = some 4 ∧
    (Frequency.yErrList (Frequency.process data10 2 .twoWay) 2).take 6 ≠
      Frequency.tailSlice 6
        (Frequency.yErrList (Frequency.process data10 2 .twoWay) 2) ∧
    (2 : ℕ) ≠ 4 := by
  refine ⟨?_, ?_, ?_, by decide⟩
  · simp only [Frequency.optimize_to_y]
    rw [show data10.length = 10 from rfl, Frequency.windowCandidates_ten,
      show ([2, 4] : List ℕ).getLast? = some 4 from rfl]
    dsimp only
    rw [if_neg (by omega)]
    norm_num [List.foldl_cons, List.foldl_nil, Frequency.yStep,
      Frequency.yScore, Frequency.process, Frequency.clearYest,
      Frequency.windowDiff, Frequency.yErrList, Frequency.lossOf,
      Frequency.mean, data10, mkRec, List.filterMap_cons,
      List.filterMap_nil, min_def]
  · simp only [Frequency.optimize_to_y_trailing]
    rw [show data10.length = 10 from rfl, Frequency.windowCandidates_ten,
      show ([2, 4] : List ℕ).getLast? = some 4 from rfl]
    dsimp only
    rw [if_neg (by omega)]
    norm_num [List.foldl_cons, List.foldl_nil, Frequency.ySpecStep,
      Frequency.ySpecScore, Frequency.process, Frequency.clearYest,
      Frequency.windowDiff, Frequency.yErrList, Frequency.lossOf,
      Frequency.mean, Frequency.tailSlice, data10, mkRec,
      List.filterMap_cons, List.filterMap_nil, min_def]
  · norm_num [Frequency.yErrList, Frequency.process, Frequency.clearYest,
      Frequency.windowDiff, Frequency.tailSlice, data10, mkRec,
      List.filterMap_cons, List.filterMap_nil]

/-- C3 witness: on `data10` with span 1/2 and the MSE loss,
`optimize_to_y` succeeds, its `delta` is a candidate, and it minimizes
the leading-slice score over the candidate set. -/
theorem C3_window_search_witness :
    ∃ res, Frequency.optimize_to_y data10 Frequency.Loss.mse (1 / 2) =
        some res ∧
      res.delta ∈ Frequency.windowCandidates (1 / 2) data10.length ∧
      ∀ N ∈ Frequency.windowCandidates (1 / 2) data10.length,
        Frequency.yScore Frequency.Loss.mse
            (Frequency.process data10 res.delta .twoWay) res.delta
            (data10.length - 2 ^ (Frequency.floorLog2
              ((1 / 2) * (data10.length : ℚ))).toNat) ≤
          Frequency.yScore Frequency.Loss.mse
            (Frequency.process data10 N .twoWay) N
            (data10.length - 2 ^ (Frequency.floorLog2
              ((1 / 2) * (data10.length : ℚ))).toNat) :=
  (C3_window_search data10 Frequency.Loss.mse
    Frequency.Criterion.instantaneous (1 / 2) 2 [4]
    (by exact Frequency.windowCandidates_ten)
    (by decide)
    (by rw [show data10.length = 10 from rfl, Frequency.floorLog2_five]
        decide)).2.1

/-- C10 witness: on `data10` the window search succeeds and the dataset
attached to the result is the one processed with the last (largest)
candidate window, not the winner. -/
theorem C10_frame_effects_witness :
    ∃ res last,
      Frequency.optimize_to_y data10 Frequency.Loss.maxError (1 / 2) =
        some res ∧
      (Frequency.windowCandidates (1 / 2) data10.length).getLast? =
        some last ∧
      res.data = Frequency.process data10 last .twoWay := by
  have hres : ∃ res, Frequency.optimize_to_y data10
      Frequency.Loss.maxError (1 / 2) = some res := by
    simp only [Frequency.optimize_to_y]
    rw [show data10.length = 10 from rfl, Frequency.windowCandidates_ten,
      show ([2, 4] : List ℕ).getLast? = some 4 from rfl]
    dsimp only
    rw [if_neg (by omega)]
    exact ⟨_, rfl⟩
  obtain ⟨res, hres⟩ := hres
  obtain ⟨last, hl, hd⟩ := C10_frame_effects.1 data10
    Frequency.Loss.maxError (1 / 2) res hres
  exact ⟨res, last, hres, hl, hd⟩

end PtpDal
